import Mathlib

/-!
Shallow embedding of `src/ElasticHashMap.hpp`: a templated open-addressing
hash table made of several subarrays ("regions") of geometrically decreasing
capacity.  Keys and values are stored in slots; insertion cascades to the
next subarray when a subarray is too full or the probe budget is exhausted.

The C++ template parameters `K`, `V`, `Hasher` become Lean type parameters
plus a function `K → Nat`; `std::vector` becomes `List`; the probe `for`
loops become fuel recursion (the fuel is the number of remaining probes);
exceptions become explicit success flags / `Except` values carrying the
thrown message.  Mutation is modelled by state passing: each mutating
operation returns the new map together with its result.
-/

namespace ElasticHashMap

/-- `struct Slot { bool occupied; K key; V value; }` -/
structure Slot (K V : Type) where
  occupied : Bool
  key : K
  value : V
deriving DecidableEq, Repr

/-- `Slot() : occupied(false) {}` — a default-initialized slot. -/
def Slot.empty {K V : Type} [Inhabited K] [Inhabited V] : Slot K V :=
  ⟨false, default, default⟩

/-- `struct Subarray { std::vector<Slot> slots; size_t size; size_t capacity; }` -/
structure Subarray (K V : Type) where
  slots : List (Slot K V)
  size : Nat
  capacity : Nat
deriving DecidableEq, Repr

/-- `Subarray(size_t cap) : size(0), capacity(cap) { slots.resize(cap); }` -/
def Subarray.mkSub {K V : Type} [Inhabited K] [Inhabited V] (cap : Nat) : Subarray K V :=
  ⟨List.replicate cap Slot.empty, 0, cap⟩

/-- One iteration of the constructor's capacity split:
`subCap = max(1, remaining/2); if (subCap < 4 && remaining < 4) subCap = remaining;` -/
def stepCap (remaining : Nat) : Nat :=
  if max 1 (remaining / 2) < 4 ∧ remaining < 4 then remaining
  else max 1 (remaining / 2)

theorem stepCap_pos (r : Nat) (hr : r ≠ 0) : 1 ≤ stepCap r := by
  unfold stepCap
  split
  · omega
  · exact Nat.le_max_left 1 _

theorem stepCap_le (r : Nat) : stepCap r ≤ r := by
  unfold stepCap
  split
  · omega
  · omega

/-- The capacity-splitting loop of the constructor, with an explicit fuel
bound on the number of iterations (each iteration removes at least one slot
from `remaining`, so `remaining` itself is enough fuel):
`while (remaining > 0) { ... subarrays.emplace_back(subCap); remaining -= subCap; }` -/
def buildCapsAux : Nat → Nat → List Nat
  | 0, _ => []
  | fuel + 1, remaining =>
    if remaining = 0 then []
    else stepCap remaining :: buildCapsAux fuel (remaining - stepCap remaining)

/-- The capacity list produced by the constructor's splitting loop. -/
def buildCaps (remaining : Nat) : List Nat :=
  buildCapsAux remaining remaining

theorem buildCapsAux_eq (r : Nat) : ∀ fuel, r ≤ fuel → buildCapsAux fuel r = buildCapsAux r r := by
  induction r using Nat.strong_induction_on with
  | _ r ih =>
    intro fuel hle
    match fuel, r with
    | 0, 0 => rfl
    | fuel + 1, 0 => rfl
    | fuel + 1, r + 1 =>
      show (if r + 1 = 0 then [] else _) = (if r + 1 = 0 then [] else _)
      rw [if_neg (by omega), if_neg (by omega)]
      have h1 : 1 ≤ stepCap (r + 1) := stepCap_pos (r + 1) (by omega)
      have h2 : stepCap (r + 1) ≤ r + 1 := stepCap_le (r + 1)
      have e1 := ih (r + 1 - stepCap (r + 1)) (by omega) fuel (by omega)
      have e2 := ih (r + 1 - stepCap (r + 1)) (by omega) r (by omega)
      rw [e1, e2]

end ElasticHashMap

/-- `class ElasticHashMap { std::vector<Subarray> subarrays; Hasher m_hasher; }` -/
structure ElasticHashMap (K V : Type) where
  subarrays : List (ElasticHashMap.Subarray K V)
  m_hasher : K → Nat

namespace ElasticHashMap

variable {K V : Type}

/-- The constructor `ElasticHashMap(size_t totalCapacity, Hasher hasher)`:
clamps the total capacity to a minimum of 8 and builds the subarrays with
the capacity-splitting loop. -/
def mkMap [Inhabited K] [Inhabited V] (totalCapacity : Nat) (hasher : K → Nat) :
    ElasticHashMap K V :=
  let tc := if totalCapacity < 8 then 8 else totalCapacity
  ⟨(buildCaps tc).map Subarray.mkSub, hasher⟩

/-- The probe loop of `findSlot` inside one subarray, as fuel recursion
(`fuel` is the number of probes left, so the loop runs for
`probe = probe, probe+1, …, probe+fuel-1`):
`for (probe...) { idx = (hashVal + probe) % subcap;
 if (!slots[idx].occupied) break;
 if (slots[idx].occupied && slots[idx].key == key) return &slots[idx]; }`.
Returns the slot index of the match, `none` for break / budget exhaustion. -/
def findFromAux [Inhabited K] [Inhabited V] [DecidableEq K]
    (sub : Subarray K V) (hashVal : Nat) (key : K) : Nat → Nat → Option Nat
  | _, 0 => none
  | probe, fuel + 1 =>
    let idx := (hashVal + probe) % sub.capacity
    let s := sub.slots.getD idx Slot.empty
    if !s.occupied then none
    else if s.occupied ∧ s.key = key then some idx
    else findFromAux sub hashVal key (probe + 1) fuel

/-- The outer loop of `findSlot`: try every subarray in order.  The returned
location `(i, j)` (subarray index, slot index) stands for the C++ slot
pointer `&subarrays[i].slots[j]`; `none` is `nullptr`. -/
def findSlotList [Inhabited K] [Inhabited V] [DecidableEq K]
    (hasher : K → Nat) (key : K) : List (Subarray K V) → Option (Nat × Nat)
  | [] => none
  | sub :: rest =>
    let hashVal := hasher key
    let maxProbes := min 16 sub.capacity
    match findFromAux sub hashVal key 0 maxProbes with
    | some j => some (0, j)
    | none => (findSlotList hasher key rest).map fun p => (p.1 + 1, p.2)

/-- `Slot* findSlot(const K& key)` on the map. -/
def findSlot [Inhabited K] [Inhabited V] [DecidableEq K]
    (m : ElasticHashMap K V) (key : K) : Option (Nat × Nat) :=
  findSlotList m.m_hasher key m.subarrays

/-- `bool count(const K& key) { return findSlot(key) != nullptr; }` -/
def count [Inhabited K] [Inhabited V] [DecidableEq K]
    (m : ElasticHashMap K V) (key : K) : Bool :=
  (findSlot m key).isSome

/-- The probe loop of `tryUpdate` inside one subarray (fuel recursion):
on an occupied slot with matching key, overwrite the value and report the
updated subarray; on an empty slot break; otherwise keep probing. -/
def tryUpdateFromAux [Inhabited K] [Inhabited V] [DecidableEq K]
    (sub : Subarray K V) (hashVal : Nat) (key : K) (val : V) :
    Nat → Nat → Option (Subarray K V)
  | _, 0 => none
  | probe, fuel + 1 =>
    let idx := (hashVal + probe) % sub.capacity
    let s := sub.slots.getD idx Slot.empty
    if s.occupied then
      if s.key = key then
        some { sub with slots := sub.slots.set idx { s with value := val } }
      else tryUpdateFromAux sub hashVal key val (probe + 1) fuel
    else none

/-- The outer loop of `bool tryUpdate(const K& key, const V& val)`.
Returns the subarray list after the call together with the boolean result. -/
def tryUpdateList [Inhabited K] [Inhabited V] [DecidableEq K]
    (hasher : K → Nat) (key : K) (val : V) :
    List (Subarray K V) → List (Subarray K V) × Bool
  | [] => ([], false)
  | sub :: rest =>
    let hashVal := hasher key
    match tryUpdateFromAux sub hashVal key val 0 (min 16 sub.capacity) with
    | some sub' => (sub' :: rest, true)
    | none =>
      let r := tryUpdateList hasher key val rest
      (sub :: r.1, r.2)

/-- The probe loop of `doInsert` inside one (eligible) subarray:
place the key in the first empty slot (marking it occupied and incrementing
`size`), or overwrite the value on a duplicate key without touching `size`. -/
def doInsertFromAux [Inhabited K] [Inhabited V] [DecidableEq K]
    (sub : Subarray K V) (hashVal : Nat) (key : K) (val : V) :
    Nat → Nat → Option (Subarray K V)
  | _, 0 => none
  | probe, fuel + 1 =>
    let idx := (hashVal + probe) % sub.capacity
    let s := sub.slots.getD idx Slot.empty
    if !s.occupied then
      some { sub with slots := sub.slots.set idx ⟨true, key, val⟩, size := sub.size + 1 }
    else if s.key = key then
      some { sub with slots := sub.slots.set idx { s with value := val } }
    else doInsertFromAux sub hashVal key val (probe + 1) fuel

/-- The outer loop of `void doInsert(const K& key, const V& val)`: a
subarray is attempted only if `sub.size * 10 < sub.capacity * 9`.  The
boolean is `false` exactly when the C++ code throws
`"table is too full or insertion failed!"`. -/
def doInsertList [Inhabited K] [Inhabited V] [DecidableEq K]
    (hasher : K → Nat) (key : K) (val : V) :
    List (Subarray K V) → List (Subarray K V) × Bool
  | [] => ([], false)
  | sub :: rest =>
    if sub.size * 10 < sub.capacity * 9 then
      match doInsertFromAux sub (hasher key) key val 0 (min 16 sub.capacity) with
      | some sub' => (sub' :: rest, true)
      | none =>
        let r := doInsertList hasher key val rest
        (sub :: r.1, r.2)
    else
      let r := doInsertList hasher key val rest
      (sub :: r.1, r.2)

/-- The message of the exception thrown by `doInsert` when no subarray can
take the key (capacity exhausted). -/
def capacityMsg : String := "ElasticHashMap: table is too full or insertion failed!"

/-- The message of the exception thrown by `operator[]` when the lookup
right after a successful insertion fails (internal invariant violation). -/
def invariantMsg : String := "ElasticHashMap: insertion unexpectedly failed!"

/-- `void insertOrUpdate(const K& key, const V& val)` in state-passing form:
`if (tryUpdate(key, val)) return; doInsert(key, val);`.  The boolean is
`false` exactly when `doInsert` throws. -/
def insertOrUpdateSt [Inhabited K] [Inhabited V] [DecidableEq K]
    (m : ElasticHashMap K V) (key : K) (val : V) : ElasticHashMap K V × Bool :=
  let r := tryUpdateList m.m_hasher key val m.subarrays
  if r.2 then ({ m with subarrays := r.1 }, true)
  else
    let r2 := doInsertList m.m_hasher key val r.1
    ({ m with subarrays := r2.1 }, r2.2)

/-- `insertOrUpdate` with the thrown message made explicit. -/
def insertOrUpdate [Inhabited K] [Inhabited V] [DecidableEq K]
    (m : ElasticHashMap K V) (key : K) (val : V) :
    Except String (ElasticHashMap K V) :=
  let r := insertOrUpdateSt m key val
  if r.2 then .ok r.1 else .error capacityMsg

/-- The slot stored at location `(i, j)`, if it exists. -/
def slotAt (subs : List (Subarray K V)) (i j : Nat) : Option (Slot K V) :=
  subs[i]?.bind fun sub => sub.slots[j]?

/-- Reading `slotPtr->value` through a `findSlot` location. -/
def derefValue [Inhabited V] (subs : List (Subarray K V)) (loc : Nat × Nat) : V :=
  ((slotAt subs loc.1 loc.2).map Slot.value).getD default

/-- The value currently stored for `key`, observed through `findSlot`. -/
def valueOf [Inhabited K] [Inhabited V] [DecidableEq K]
    (m : ElasticHashMap K V) (key : K) : Option V :=
  (findSlot m key).bind fun loc => (slotAt m.subarrays loc.1 loc.2).map Slot.value

/-- `V& operator[](const K& key)` in state-passing form: find; if absent,
`insertOrUpdate(key, defaultVal)` (the `static V defaultVal{}` instance is
a default-constructed value) and find again, throwing
`invariantMsg` if the second lookup also fails.  A thrown exception from
`doInsert` propagates with its own message. -/
def getOrInsertSt [Inhabited K] [Inhabited V] [DecidableEq K]
    (m : ElasticHashMap K V) (key : K) : ElasticHashMap K V × Except String V :=
  match findSlot m key with
  | some loc => (m, .ok (derefValue m.subarrays loc))
  | none =>
    let r := insertOrUpdateSt m key default
    if r.2 then
      match findSlot r.1 key with
      | some loc => (r.1, .ok (derefValue r.1.subarrays loc))
      | none => (r.1, .error invariantMsg)
    else (r.1, .error capacityMsg)

/-- `true` iff location `(i, j)` holds an occupied slot whose key is `k`. -/
def occupiesSlot [DecidableEq K] (subs : List (Subarray K V)) (k : K) (i j : Nat) : Bool :=
  match slotAt subs i j with
  | some s => s.occupied && decide (s.key = k)
  | none => false

/-- The public single-threaded operations of the container. -/
inductive Op (K V : Type) where
  | put : K → V → Op K V
  | getDefault : K → Op K V
  | countK : K → Op K V

/-- Run one operation, returning the new map state and whether the
operation completed without throwing. -/
def runOp [Inhabited K] [Inhabited V] [DecidableEq K]
    (m : ElasticHashMap K V) : Op K V → ElasticHashMap K V × Bool
  | .put k v => insertOrUpdateSt m k v
  | .getDefault k =>
    let r := getOrInsertSt m k
    (r.1, match r.2 with | .ok _ => true | .error _ => false)
  | .countK _ => (m, true)

/-- Run a sequence of operations, stopping at the first failure.  The
boolean is `true` iff every operation succeeded. -/
def runOps [Inhabited K] [Inhabited V] [DecidableEq K]
    (m : ElasticHashMap K V) : List (Op K V) → ElasticHashMap K V × Bool
  | [] => (m, true)
  | op :: rest =>
    let r := runOp m op
    if r.2 then runOps r.1 rest else (r.1, false)

/-- Run a sequence of operations, carrying the state through failures
(a thrown insertion leaves the map unchanged). -/
def runOpsAll [Inhabited K] [Inhabited V] [DecidableEq K]
    (m : ElasticHashMap K V) : List (Op K V) → ElasticHashMap K V
  | [] => m
  | op :: rest => runOpsAll (runOp m op).1 rest

/-- The functional-map model of one operation: `put` writes the value,
`getDefault` writes the default value if the key is absent, `countK` is
read-only. -/
def applyModel [Inhabited V] [DecidableEq K]
    (f : K → Option V) : Op K V → K → Option V
  | .put k v => fun q => if q = k then some v else f q
  | .getDefault k => fun q => if q = k then some ((f k).getD default) else f q
  | .countK _ => f

/-- The functional-map model of a whole operation sequence, starting empty. -/
def modelOf [Inhabited V] [DecidableEq K] (ops : List (Op K V)) : K → Option V :=
  ops.foldl applyModel fun _ => none

/-- Representation invariant kept by the C++ `std::vector<Slot>`: every
subarray has exactly `capacity` slots. -/
def lenOK (subs : List (Subarray K V)) : Prop :=
  ∀ sub ∈ subs, sub.slots.length = sub.capacity

/-- `size` counts the occupied slots of the subarray. -/
def sizeOK (subs : List (Subarray K V)) : Prop :=
  ∀ sub ∈ subs, sub.size = sub.slots.countP (·.occupied)

/-- Every occupied slot is found by `findSlot` on its key: the key of every
occupied slot is reachable through the probing discipline, and hence no key
occupies two distinct slots. -/
def reachOK [Inhabited K] [Inhabited V] [DecidableEq K]
    (hasher : K → Nat) (subs : List (Subarray K V)) : Prop :=
  ∀ k i j, occupiesSlot subs k i j = true → findSlotList hasher k subs = some (i, j)

/-- The full state invariant of a reachable map. -/
def INV [Inhabited K] [Inhabited V] [DecidableEq K] (m : ElasticHashMap K V) : Prop :=
  lenOK m.subarrays ∧ sizeOK m.subarrays ∧ reachOK m.m_hasher m.subarrays

/-- The subarray after overwriting the value stored at slot `j`
(the effect of a successful `tryUpdate` probe, and of the duplicate-key
branch of `doInsert`). -/
def setval [Inhabited K] [Inhabited V] (sub : Subarray K V) (j : Nat) (v : V) : Subarray K V :=
  { sub with slots := sub.slots.set j { sub.slots.getD j Slot.empty with value := v } }

/-- The subarray after claiming the empty slot `j` for `key`/`val`
(the placement branch of `doInsert`). -/
def placeSlot (sub : Subarray K V) (j : Nat) (key : K) (val : V) : Subarray K V :=
  { sub with slots := sub.slots.set j ⟨true, key, val⟩, size := sub.size + 1 }

/-- Modelled from the spec: the canonical probe sequence of §4.1,
`idx(probe) = (h + probe) mod capacity` for `probe` in `[0, L)` with
`L = min(16, capacity)`. -/
def probeSeq (h cap : Nat) : List Nat :=
  (List.range (min 16 cap)).map fun probe => (h + probe) % cap

/-- Modelled from the spec: a lookup scan driven by an explicit list of
slot indices (stop at the first empty slot, return the index on a key
match). -/
def scanFind [Inhabited K] [Inhabited V] [DecidableEq K]
    (sub : Subarray K V) (key : K) : List Nat → Option Nat
  | [] => none
  | idx :: rest =>
    let s := sub.slots.getD idx Slot.empty
    if !s.occupied then none
    else if s.occupied ∧ s.key = key then some idx
    else scanFind sub key rest

/-- Modelled from the spec: an update scan driven by an explicit list of
slot indices. -/
def scanUpdate [Inhabited K] [Inhabited V] [DecidableEq K]
    (sub : Subarray K V) (key : K) (val : V) : List Nat → Option (Subarray K V)
  | [] => none
  | idx :: rest =>
    let s := sub.slots.getD idx Slot.empty
    if s.occupied then
      if s.key = key then some (setval sub idx val)
      else scanUpdate sub key val rest
    else none

/-- Modelled from the spec: an insertion scan driven by an explicit list of
slot indices (claim the first empty slot, overwrite on a duplicate key). -/
def scanInsert [Inhabited K] [Inhabited V] [DecidableEq K]
    (sub : Subarray K V) (key : K) (val : V) : List Nat → Option (Subarray K V)
  | [] => none
  | idx :: rest =>
    let s := sub.slots.getD idx Slot.empty
    if !s.occupied then some (placeSlot sub idx key val)
    else if s.key = key then some (setval sub idx val)
    else scanInsert sub key val rest

/-- Relation between the subarray lists before and after one operation:
same number of regions, each with unchanged capacity and slot count and
non-decreasing size. -/
def subsLe (subs subs' : List (Subarray K V)) : Prop :=
  subs.length = subs'.length ∧
    ∀ (i : Nat) (sub sub' : Subarray K V), subs[i]? = some sub → subs'[i]? = some sub' →
      sub.capacity = sub'.capacity ∧ sub.size ≤ sub'.size ∧
        sub.slots.length = sub'.slots.length

/-! ### The constructor's capacity layout -/

theorem buildCaps_zero : buildCaps 0 = [] := rfl

theorem buildCapsAux_succ (fuel r : Nat) (h : r ≠ 0) :
    buildCapsAux (fuel + 1) r = stepCap r :: buildCapsAux fuel (r - stepCap r) := by
  simp [buildCapsAux, h]

theorem buildCaps_cons (r : Nat) (h : r ≠ 0) :
    buildCaps r = stepCap r :: buildCaps (r - stepCap r) := by
  match r with
  | r + 1 =>
    have h1 : 1 ≤ stepCap (r + 1) := stepCap_pos (r + 1) (by omega)
    have h2 : stepCap (r + 1) ≤ r + 1 := stepCap_le (r + 1)
    show buildCapsAux (r + 1) (r + 1) = _
    rw [buildCapsAux_succ r (r + 1) (by omega),
      buildCapsAux_eq (r + 1 - stepCap (r + 1)) r (by omega)]
    rfl

theorem buildCaps_sum (r : Nat) : (buildCaps r).sum = r := by
  induction r using Nat.strong_induction_on with
  | _ r ih =>
    by_cases h : r = 0
    · subst h
      simp [buildCaps_zero]
    · have h1 : 1 ≤ stepCap r := stepCap_pos r h
      have h2 : stepCap r ≤ r := stepCap_le r
      rw [buildCaps_cons r h, List.sum_cons, ih (r - stepCap r) (by omega)]
      omega

theorem stepCap_small (r : Nat) (h4 : r < 4) : stepCap r = r := by
  unfold stepCap
  have : r / 2 ≤ 1 := by omega
  rw [if_pos]
  omega

theorem stepCap_big (r : Nat) (h4 : 4 ≤ r) : stepCap r = r / 2 := by
  unfold stepCap
  rw [if_neg (by omega)]
  omega

theorem buildCaps_small (r : Nat) (h0 : r ≠ 0) (h4 : r < 4) : buildCaps r = [r] := by
  rw [buildCaps_cons r h0, stepCap_small r h4]
  simp [buildCaps_zero]

theorem buildCaps_big (r : Nat) (h4 : 4 ≤ r) :
    buildCaps r = r / 2 :: buildCaps (r - r / 2) := by
  rw [buildCaps_cons r (by omega), stepCap_big r h4]

theorem buildCaps_ne_nil (r : Nat) (h : r ≠ 0) : buildCaps r ≠ [] := by
  rw [buildCaps_cons r h]
  simp

/-- All capacities except possibly the final region's are non-increasing. -/
theorem buildCaps_chain (r : Nat) :
    List.Chain' (fun a b => b ≤ a) (buildCaps r).dropLast := by
  induction r using Nat.strong_induction_on with
  | _ r ih =>
    by_cases h0 : r = 0
    · subst h0
      simp [buildCaps_zero]
    by_cases h4 : r < 4
    · rw [buildCaps_small r h0 h4]
      simp
    push_neg at h4
    rw [buildCaps_big r h4]
    have hr1 : r - r / 2 ≠ 0 := by omega
    by_cases h4' : r - r / 2 < 4
    · rw [buildCaps_small _ hr1 h4']
      simp
    · push_neg at h4'
      rw [buildCaps_big _ h4']
      have hr2 : (r - r / 2) - (r - r / 2) / 2 ≠ 0 := by omega
      obtain ⟨c, t, hct⟩ : ∃ c t, buildCaps ((r - r / 2) - (r - r / 2) / 2) = c :: t := by
        cases hb : buildCaps ((r - r / 2) - (r - r / 2) / 2) with
        | nil => exact absurd hb (buildCaps_ne_nil _ hr2)
        | cons c t => exact ⟨c, t, rfl⟩
      rw [hct, List.dropLast_cons₂, List.chain'_cons']
      refine ⟨?_, ?_⟩
      · intro b hb
        rw [List.dropLast_cons₂, List.head?_cons, Option.mem_some_iff] at hb
        omega
      · have h5 := ih (r - r / 2) (by omega)
        rw [buildCaps_big _ h4', hct] at h5
        exact h5

/-! ### List access helpers -/

theorem getD_set_self {α : Type} (l : List α) (i : Nat) (b d : α) (h : i < l.length) :
    (l.set i b).getD i d = b := by
  rw [List.getD_eq_getElem?_getD, List.getElem?_set_self h]
  rfl

theorem getD_set_eq_ite {α : Type} (l : List α) (i n : Nat) (b d : α) :
    (l.set i b).getD n d = if i = n ∧ i < l.length then b else l.getD n d := by
  by_cases h1 : i = n
  · subst h1
    by_cases h2 : i < l.length
    · rw [List.getD_eq_getElem?_getD, List.getElem?_set_self h2, if_pos ⟨rfl, h2⟩]
      rfl
    · rw [if_neg (by tauto), List.getD_eq_getElem?_getD, List.getD_eq_getElem?_getD,
        List.getElem?_set]
      simp [h2, List.getElem?_eq_none (show l.length ≤ i from by omega)]
  · rw [List.getD_eq_getElem?_getD, List.getElem?_set_ne h1, if_neg (by tauto),
      List.getD_eq_getElem?_getD]

/-! ### Shape of the modified subarrays -/

section SubShape

variable {K V : Type} [Inhabited K] [Inhabited V]

theorem setval_capacity (sub : Subarray K V) (j : Nat) (v : V) :
    (setval sub j v).capacity = sub.capacity := rfl

theorem setval_size (sub : Subarray K V) (j : Nat) (v : V) :
    (setval sub j v).size = sub.size := rfl

theorem setval_slots_length (sub : Subarray K V) (j : Nat) (v : V) :
    (setval sub j v).slots.length = sub.slots.length := List.length_set ..

theorem setval_getD (sub : Subarray K V) (j : Nat) (v : V) (n : Nat) :
    (setval sub j v).slots.getD n Slot.empty =
      if j = n ∧ j < sub.slots.length then
        { sub.slots.getD j Slot.empty with value := v }
      else sub.slots.getD n Slot.empty :=
  getD_set_eq_ite ..

theorem setval_getD_occupied (sub : Subarray K V) (j : Nat) (v : V) (n : Nat) :
    ((setval sub j v).slots.getD n Slot.empty).occupied =
      ((sub.slots.getD n Slot.empty)).occupied := by
  rw [setval_getD]
  split
  · rename_i hx
    rw [hx.1]
  · rfl

theorem setval_getD_key (sub : Subarray K V) (j : Nat) (v : V) (n : Nat) :
    ((setval sub j v).slots.getD n Slot.empty).key =
      ((sub.slots.getD n Slot.empty)).key := by
  rw [setval_getD]
  split
  · rename_i hx
    rw [hx.1]
  · rfl

theorem placeSlot_capacity (sub : Subarray K V) (j : Nat) (k : K) (v : V) :
    (placeSlot sub j k v).capacity = sub.capacity := rfl

theorem placeSlot_size (sub : Subarray K V) (j : Nat) (k : K) (v : V) :
    (placeSlot sub j k v).size = sub.size + 1 := rfl

theorem placeSlot_slots_length (sub : Subarray K V) (j : Nat) (k : K) (v : V) :
    (placeSlot sub j k v).slots.length = sub.slots.length := List.length_set ..

theorem placeSlot_getD (sub : Subarray K V) (j : Nat) (k : K) (v : V) (n : Nat) :
    (placeSlot sub j k v).slots.getD n Slot.empty =
      if j = n ∧ j < sub.slots.length then ⟨true, k, v⟩
      else sub.slots.getD n Slot.empty :=
  getD_set_eq_ite ..

end SubShape

/-! ### Distinctness of probe indices -/

theorem probe_mod_ne (h cap p q : Nat) (hp : p < cap) (hq : q < cap) (hne : p ≠ q) :
    (h + p) % cap ≠ (h + q) % cap := by
  intro he
  have hmeq : p % cap = q % cap := Nat.ModEq.add_left_cancel' h he
  rw [Nat.mod_eq_of_lt hp, Nat.mod_eq_of_lt hq] at hmeq
  exact hne hmeq

/-! ### Per-subarray probe-scan lemmas -/

section ScanLemmas

variable {K V : Type} [Inhabited K] [Inhabited V] [DecidableEq K]

theorem findFromAux_eq_some_iff (sub : Subarray K V) (h : Nat) (k : K) :
    ∀ (fuel probe j : Nat),
      findFromAux sub h k probe fuel = some j ↔
        ∃ p, probe ≤ p ∧ p < probe + fuel ∧ j = (h + p) % sub.capacity ∧
          ((sub.slots.getD ((h + p) % sub.capacity) Slot.empty).occupied = true ∧
            (sub.slots.getD ((h + p) % sub.capacity) Slot.empty).key = k) ∧
          ∀ q, probe ≤ q → q < p →
            (sub.slots.getD ((h + q) % sub.capacity) Slot.empty).occupied = true ∧
            ¬ (sub.slots.getD ((h + q) % sub.capacity) Slot.empty).key = k := by
  intro fuel
  induction fuel with
  | zero =>
    intro probe j
    constructor
    · intro hx
      simp [findFromAux] at hx
    · rintro ⟨p, h1, h2, -⟩
      omega
  | succ fuel ih =>
    intro probe j
    simp only [findFromAux]
    by_cases hocc : (sub.slots.getD ((h + probe) % sub.capacity) Slot.empty).occupied = true
    case neg =>
      rw [Bool.not_eq_true] at hocc
      rw [if_pos (by simp only [hocc]; rfl)]
      constructor
      · intro hx
        simp at hx
      · rintro ⟨p, h1, h2, h3, h4, h5⟩
        rcases Nat.eq_or_lt_of_le h1 with he | hlt
        · rw [← he] at h4
          rw [hocc] at h4
          exact absurd h4.1 Bool.false_ne_true
        · have := (h5 probe (le_refl _) hlt).1
          rw [hocc] at this
          exact absurd this Bool.false_ne_true
    case pos =>
      rw [if_neg (by simp only [hocc]; exact Bool.false_ne_true)]
      by_cases hk : (sub.slots.getD ((h + probe) % sub.capacity) Slot.empty).key = k
      · rw [if_pos ⟨hocc, hk⟩]
        constructor
        · intro hx
          refine ⟨probe, le_refl _, by omega, (Option.some_inj.mp hx).symm, ⟨hocc, hk⟩, ?_⟩
          intro q hq1 hq2
          omega
        · rintro ⟨p, h1, h2, h3, -, h5⟩
          rcases Nat.eq_or_lt_of_le h1 with he | hlt
          · rw [h3, ← he]
          · exact absurd hk (h5 probe (le_refl _) hlt).2
      · rw [if_neg (by tauto)]
        rw [ih (probe + 1) j]
        constructor
        · rintro ⟨p, h1, h2, h3, h4, h5⟩
          refine ⟨p, by omega, by omega, h3, h4, ?_⟩
          intro q hq1 hq2
          rcases Nat.eq_or_lt_of_le hq1 with he | hlt
          · rw [← he]
            exact ⟨hocc, hk⟩
          · exact h5 q hlt hq2
        · rintro ⟨p, h1, h2, h3, h4, h5⟩
          have hp1 : probe + 1 ≤ p := by
            rcases Nat.eq_or_lt_of_le h1 with he | hlt
            · exfalso
              rw [← he] at h4
              exact hk h4.2
            · omega
          exact ⟨p, hp1, by omega, h3, h4, fun q hq1 hq2 => h5 q (by omega) hq2⟩

theorem findFromAux_eq_none_of_absent (sub : Subarray K V) (h : Nat) (k : K)
    (hab : ∀ n, (sub.slots.getD n Slot.empty).occupied = true →
      ¬ (sub.slots.getD n Slot.empty).key = k) :
    ∀ fuel probe, findFromAux sub h k probe fuel = none := by
  intro fuel
  induction fuel with
  | zero => intro probe; rfl
  | succ fuel ih =>
    intro probe
    simp only [findFromAux]
    by_cases hocc : (sub.slots.getD ((h + probe) % sub.capacity) Slot.empty).occupied = true
    case neg =>
      rw [Bool.not_eq_true] at hocc
      rw [if_pos (by simp only [hocc]; rfl)]
    case pos =>
      rw [if_neg (by simp only [hocc]; exact Bool.false_ne_true), if_neg (by
        rintro ⟨-, hk⟩
        exact hab _ hocc hk)]
      exact ih (probe + 1)

theorem tryUpdateFromAux_eq (sub : Subarray K V) (h : Nat) (k : K) (v : V) :
    ∀ fuel probe, tryUpdateFromAux sub h k v probe fuel =
      (findFromAux sub h k probe fuel).map fun j => setval sub j v := by
  intro fuel
  induction fuel with
  | zero => intro probe; rfl
  | succ fuel ih =>
    intro probe
    simp only [tryUpdateFromAux, findFromAux]
    by_cases hocc : (sub.slots.getD ((h + probe) % sub.capacity) Slot.empty).occupied = true
    case neg =>
      have hocc' := hocc
      rw [Bool.not_eq_true] at hocc'
      rw [if_neg hocc, if_pos (by simp only [hocc']; rfl)]
      rfl
    case pos =>
      by_cases hk : (sub.slots.getD ((h + probe) % sub.capacity) Slot.empty).key = k
      · rw [if_pos hocc, if_pos hk, if_neg (by simp only [hocc]; exact Bool.false_ne_true),
          if_pos ⟨hocc, hk⟩]
        rfl
      · rw [if_pos hocc, if_neg hk, if_neg (by simp only [hocc]; exact Bool.false_ne_true),
          if_neg (by tauto)]
        exact ih (probe + 1)

theorem doInsertFromAux_spec (sub : Subarray K V) (h : Nat) (k : K) (v : V) :
    ∀ fuel probe sub2, doInsertFromAux sub h k v probe fuel = some sub2 →
      ∃ p, probe ≤ p ∧ p < probe + fuel ∧
        (∀ q, probe ≤ q → q < p →
          (sub.slots.getD ((h + q) % sub.capacity) Slot.empty).occupied = true ∧
          ¬ (sub.slots.getD ((h + q) % sub.capacity) Slot.empty).key = k) ∧
        (((sub.slots.getD ((h + p) % sub.capacity) Slot.empty).occupied = false ∧
            sub2 = placeSlot sub ((h + p) % sub.capacity) k v) ∨
          ((sub.slots.getD ((h + p) % sub.capacity) Slot.empty).occupied = true ∧
            (sub.slots.getD ((h + p) % sub.capacity) Slot.empty).key = k ∧
            sub2 = setval sub ((h + p) % sub.capacity) v)) := by
  intro fuel
  induction fuel with
  | zero =>
    intro probe sub2 hx
    simp [doInsertFromAux] at hx
  | succ fuel ih =>
    intro probe sub2
    simp only [doInsertFromAux]
    by_cases hocc : (sub.slots.getD ((h + probe) % sub.capacity) Slot.empty).occupied = true
    case neg =>
      rw [Bool.not_eq_true] at hocc
      rw [if_pos (by simp only [hocc]; rfl)]
      intro hx
      refine ⟨probe, le_refl _, by omega, by intro q h1 h2; omega,
        Or.inl ⟨hocc, ?_⟩⟩
      exact (Option.some_inj.mp hx).symm
    case pos =>
      rw [if_neg (by simp only [hocc]; exact Bool.false_ne_true)]
      by_cases hk : (sub.slots.getD ((h + probe) % sub.capacity) Slot.empty).key = k
      · rw [if_pos hk]
        intro hx
        refine ⟨probe, le_refl _, by omega, by intro q h1 h2; omega, Or.inr ⟨hocc, hk, ?_⟩⟩
        exact (Option.some_inj.mp hx).symm
      · rw [if_neg hk]
        intro hx
        obtain ⟨p, h1, h2, h3, h4⟩ := ih (probe + 1) sub2 hx
        refine ⟨p, by omega, by omega, ?_, h4⟩
        intro q hq1 hq2
        rcases Nat.eq_or_lt_of_le hq1 with he | hlt
        · rw [← he]
          exact ⟨hocc, hk⟩
        · exact h3 q hlt hq2

theorem findFromAux_setval (sub : Subarray K V) (j : Nat) (v : V) (h : Nat) (k : K) :
    ∀ fuel probe,
      findFromAux (setval sub j v) h k probe fuel = findFromAux sub h k probe fuel := by
  intro fuel
  induction fuel with
  | zero => intro probe; rfl
  | succ fuel ih =>
    intro probe
    simp only [findFromAux, setval_capacity, setval_getD_occupied, setval_getD_key]
    rw [ih (probe + 1)]

end ScanLemmas

/-! ### Whole-map search and update lemmas -/

section ListLemmas

variable {K V : Type} [Inhabited K] [Inhabited V] [DecidableEq K]

theorem findSlotList_eq_none_iff (hasher : K → Nat) (k : K) :
    ∀ subs : List (Subarray K V),
      findSlotList hasher k subs = none ↔
        ∀ sub ∈ subs, findFromAux sub (hasher k) k 0 (min 16 sub.capacity) = none := by
  intro subs
  induction subs with
  | nil => simp [findSlotList]
  | cons sub rest ih =>
    simp only [findSlotList]
    cases hf : findFromAux sub (hasher k) k 0 (min 16 sub.capacity) with
    | some j =>
      constructor
      · intro hx
        simp at hx
      · intro hall
        have := hall sub (List.mem_cons_self _ _)
        rw [hf] at this
        cases this
    | none =>
      constructor
      · intro hx sub' hmem
        rcases List.mem_cons.mp hmem with he | hm
        · rw [he]
          exact hf
        · exact ih.mp (Option.map_eq_none'.mp hx) sub' hm
      · intro hall
        rw [ih.mpr fun sub' hm => hall sub' (List.mem_cons_of_mem _ hm)]
        rfl

theorem findSlotList_eq_some_iff (hasher : K → Nat) (k : K) :
    ∀ (subs : List (Subarray K V)) (i j : Nat),
      findSlotList hasher k subs = some (i, j) ↔
        ∃ sub, subs[i]? = some sub ∧
          findFromAux sub (hasher k) k 0 (min 16 sub.capacity) = some j ∧
          ∀ e, e < i → ∀ sub_e, subs[e]? = some sub_e →
            findFromAux sub_e (hasher k) k 0 (min 16 sub_e.capacity) = none := by
  intro subs
  induction subs with
  | nil =>
    intro i j
    simp [findSlotList]
  | cons sub rest ih =>
    intro i j
    simp only [findSlotList]
    cases hf : findFromAux sub (hasher k) k 0 (min 16 sub.capacity) with
    | some j0 =>
      constructor
      · intro hx
        have heq := Option.some_inj.mp hx
        simp only [Prod.mk.injEq] at heq
        obtain ⟨hi, hj⟩ := heq
        subst hi
        subst hj
        exact ⟨sub, by simp, hf, by omega⟩
      · rintro ⟨sub', hs', hfind', hprev⟩
        cases i with
        | zero =>
          rw [List.getElem?_cons_zero] at hs'
          obtain rfl : sub = sub' := Option.some_inj.mp hs'
          rw [hf] at hfind'
          rw [Option.some_inj.mp hfind']
        | succ i' =>
          have h0 := hprev 0 (by omega) sub (by simp)
          rw [hf] at h0
          cases h0
    | none =>
      constructor
      · intro hx
        obtain ⟨⟨i', j'⟩, hrest, heq⟩ := Option.map_eq_some'.mp hx
        simp only [Prod.mk.injEq] at heq
        obtain ⟨hi, hj⟩ := heq
        subst hi
        subst hj
        obtain ⟨sub', hs', hfind', hprev⟩ := (ih i' j').mp hrest
        refine ⟨sub', by simpa using hs', hfind', ?_⟩
        intro e he sub_e hse
        cases e with
        | zero =>
          rw [List.getElem?_cons_zero] at hse
          obtain rfl : sub = sub_e := Option.some_inj.mp hse
          exact hf
        | succ e' =>
          exact hprev e' (by omega) sub_e (by simpa using hse)
      · rintro ⟨sub', hs', hfind', hprev⟩
        cases i with
        | zero =>
          rw [List.getElem?_cons_zero] at hs'
          obtain rfl : sub = sub' := Option.some_inj.mp hs'
          rw [hf] at hfind'
          cases hfind'
        | succ i' =>
          rw [List.getElem?_cons_succ] at hs'
          have hrest : findSlotList hasher k rest = some (i', j) :=
            (ih i' j).mpr ⟨sub', hs', hfind', fun e he sub_e hse =>
              hprev (e + 1) (by omega) sub_e (by simpa using hse)⟩
          rw [hrest]
          rfl

theorem tryUpdateList_of_none (hasher : K → Nat) (k : K) (v : V) :
    ∀ subs : List (Subarray K V), findSlotList hasher k subs = none →
      tryUpdateList hasher k v subs = (subs, false) := by
  intro subs
  induction subs with
  | nil => intro hx; rfl
  | cons sub rest ih =>
    intro hx
    simp only [findSlotList] at hx
    cases hf : findFromAux sub (hasher k) k 0 (min 16 sub.capacity) with
    | some j =>
      rw [hf] at hx
      cases hx
    | none =>
      rw [hf] at hx
      have hrest := Option.map_eq_none'.mp hx
      simp only [tryUpdateList, tryUpdateFromAux_eq, hf, Option.map_none']
      rw [ih hrest]

theorem tryUpdateList_of_some (hasher : K → Nat) (k : K) (v : V) :
    ∀ (subs : List (Subarray K V)) (i j : Nat) (sub : Subarray K V),
      findSlotList hasher k subs = some (i, j) → subs[i]? = some sub →
        tryUpdateList hasher k v subs = (subs.set i (setval sub j v), true) := by
  intro subs
  induction subs with
  | nil =>
    intro i j sub hx
    simp [findSlotList] at hx
  | cons sub0 rest ih =>
    intro i j sub hx hs
    simp only [findSlotList] at hx
    cases hf : findFromAux sub0 (hasher k) k 0 (min 16 sub0.capacity) with
    | some j0 =>
      rw [hf] at hx
      have heq := Option.some_inj.mp hx
      simp only [Prod.mk.injEq] at heq
      obtain ⟨hi, hj⟩ := heq
      subst hi
      subst hj
      rw [List.getElem?_cons_zero] at hs
      obtain rfl : sub0 = sub := Option.some_inj.mp hs
      simp only [tryUpdateList, tryUpdateFromAux_eq, hf, Option.map_some']
      rw [List.set_cons_zero]
    | none =>
      rw [hf] at hx
      obtain ⟨⟨i', j'⟩, hrest, heq⟩ := Option.map_eq_some'.mp hx
      simp only [Prod.mk.injEq] at heq
      obtain ⟨hi, hj⟩ := heq
      subst hi
      subst hj
      rw [List.getElem?_cons_succ] at hs
      simp only [tryUpdateList, tryUpdateFromAux_eq, hf, Option.map_none']
      rw [ih i' j' sub hrest hs, List.set_cons_succ]

theorem doInsertList_of_false (hasher : K → Nat) (k : K) (v : V) :
    ∀ subs : List (Subarray K V), (doInsertList hasher k v subs).2 = false →
      (doInsertList hasher k v subs).1 = subs := by
  intro subs
  induction subs with
  | nil => intro hx; rfl
  | cons sub rest ih =>
    simp only [doInsertList]
    by_cases hg : sub.size * 10 < sub.capacity * 9
    · rw [if_pos hg]
      cases hf : doInsertFromAux sub (hasher k) k v 0 (min 16 sub.capacity) with
      | some sub' =>
        intro hx
        cases hx
      | none =>
        intro hx
        simp only at hx ⊢
        rw [ih hx]
    · rw [if_neg hg]
      intro hx
      simp only at hx ⊢
      rw [ih hx]

theorem doInsertList_of_true (hasher : K → Nat) (k : K) (v : V) :
    ∀ (subs subs' : List (Subarray K V)), doInsertList hasher k v subs = (subs', true) →
      ∃ (i : Nat) (sub sub2 : Subarray K V), subs[i]? = some sub ∧
        sub.size * 10 < sub.capacity * 9 ∧
        doInsertFromAux sub (hasher k) k v 0 (min 16 sub.capacity) = some sub2 ∧
        subs' = subs.set i sub2 := by
  intro subs
  induction subs with
  | nil =>
    intro subs' hx
    simp [doInsertList] at hx
  | cons sub rest ih =>
    intro subs' hx
    simp only [doInsertList] at hx
    by_cases hg : sub.size * 10 < sub.capacity * 9
    · rw [if_pos hg] at hx
      cases hf : doInsertFromAux sub (hasher k) k v 0 (min 16 sub.capacity) with
      | some sub2 =>
        rw [hf] at hx
        have h1 : sub2 :: rest = subs' := congrArg Prod.fst hx
        exact ⟨0, sub, sub2, by simp, hg, hf, by rw [← h1, List.set_cons_zero]⟩
      | none =>
        rw [hf] at hx
        have h2 : (doInsertList hasher k v rest).2 = true := congrArg Prod.snd hx
        have h1 : sub :: (doInsertList hasher k v rest).1 = subs' := congrArg Prod.fst hx
        obtain ⟨i, subI, sub2, hsI, hgI, hfI, hset⟩ :=
          ih (doInsertList hasher k v rest).1 (by rw [← h2])
        exact ⟨i + 1, subI, sub2, by simpa using hsI, hgI, hfI,
          by rw [← h1, hset, List.set_cons_succ]⟩
    · rw [if_neg hg] at hx
      have h2 : (doInsertList hasher k v rest).2 = true := congrArg Prod.snd hx
      have h1 : sub :: (doInsertList hasher k v rest).1 = subs' := congrArg Prod.fst hx
      obtain ⟨i, subI, sub2, hsI, hgI, hfI, hset⟩ :=
        ih (doInsertList hasher k v rest).1 (by rw [← h2])
      exact ⟨i + 1, subI, sub2, by simpa using hsI, hgI, hfI,
        by rw [← h1, hset, List.set_cons_succ]⟩

theorem tryUpdateList_snd (hasher : K → Nat) (k : K) (v : V) (subs : List (Subarray K V)) :
    (tryUpdateList hasher k v subs).2 = (findSlotList hasher k subs).isSome := by
  cases hfs : findSlotList hasher k subs with
  | none => rw [tryUpdateList_of_none hasher k v subs hfs]; rfl
  | some p =>
    obtain ⟨i, j⟩ := p
    obtain ⟨sub, hs, -, -⟩ := (findSlotList_eq_some_iff hasher k subs i j).mp hfs
    rw [tryUpdateList_of_some hasher k v subs i j sub hfs hs]
    rfl

/-- On failure (`doInsert` would throw), `insertOrUpdateSt` leaves the
subarrays — and hence the whole map — untouched. -/
theorem insertOrUpdateSt_of_false (m : ElasticHashMap K V) (k : K) (v : V)
    (hx : (insertOrUpdateSt m k v).2 = false) : (insertOrUpdateSt m k v).1 = m := by
  simp only [insertOrUpdateSt] at hx ⊢
  by_cases ht : (tryUpdateList m.m_hasher k v m.subarrays).2 = true
  · rw [if_pos ht] at hx
    cases hx
  · have hnone : findSlotList m.m_hasher k m.subarrays = none := by
      rw [tryUpdateList_snd] at ht
      cases hfs : findSlotList m.m_hasher k m.subarrays with
      | none => rfl
      | some p => rw [hfs] at ht; exact absurd rfl ht
    have hrw := tryUpdateList_of_none m.m_hasher k v m.subarrays hnone
    rw [if_neg ht] at hx ⊢
    rw [hrw] at hx ⊢
    simp only at hx ⊢
    rw [doInsertList_of_false m.m_hasher k v m.subarrays hx]

/-- The per-subarray scans of lookup, update and insertion each coincide
with the spec-level scan driven by the canonical probe sequence. -/
theorem findFromAux_eq_scanFind (sub : Subarray K V) (h : Nat) (k : K) :
    ∀ fuel probe, findFromAux sub h k probe fuel =
      scanFind sub k ((List.range' probe fuel).map fun p => (h + p) % sub.capacity) := by
  intro fuel
  induction fuel with
  | zero => intro probe; rfl
  | succ fuel ih =>
    intro probe
    simp only [findFromAux, List.range', List.map_cons, scanFind]
    rw [ih (probe + 1)]

theorem tryUpdateFromAux_eq_scanUpdate (sub : Subarray K V) (h : Nat) (k : K) (v : V) :
    ∀ fuel probe, tryUpdateFromAux sub h k v probe fuel =
      scanUpdate sub k v ((List.range' probe fuel).map fun p => (h + p) % sub.capacity) := by
  intro fuel
  induction fuel with
  | zero => intro probe; rfl
  | succ fuel ih =>
    intro probe
    simp only [tryUpdateFromAux, List.range', List.map_cons, scanUpdate, setval]
    rw [ih (probe + 1)]

theorem doInsertFromAux_eq_scanInsert (sub : Subarray K V) (h : Nat) (k : K) (v : V) :
    ∀ fuel probe, doInsertFromAux sub h k v probe fuel =
      scanInsert sub k v ((List.range' probe fuel).map fun p => (h + p) % sub.capacity) := by
  intro fuel
  induction fuel with
  | zero => intro probe; rfl
  | succ fuel ih =>
    intro probe
    simp only [doInsertFromAux, List.range', List.map_cons, scanInsert, setval, placeSlot]
    rw [ih (probe + 1)]

end ListLemmas

/-! ### Slot bookkeeping helpers -/

theorem lt_length_of_getElem? {α : Type} {l : List α} {i : Nat} {a : α}
    (h : l[i]? = some a) : i < l.length :=
  (List.getElem?_eq_some.mp h).1

theorem mem_of_getElem? {α : Type} {l : List α} {i : Nat} {a : α}
    (h : l[i]? = some a) : a ∈ l := by
  obtain ⟨hw, he⟩ := List.getElem?_eq_some.mp h
  exact he ▸ List.getElem_mem hw

theorem getElem?_eq_some_getD {α : Type} (l : List α) (j : Nat) (d : α)
    (h : j < l.length) : l[j]? = some (l.getD j d) := by
  rw [List.getD_eq_getElem?_getD, List.getElem?_eq_getElem h]
  rfl

theorem getD_eq_getElem {α : Type} (l : List α) (j : Nat) (d : α)
    (h : j < l.length) : l.getD j d = l[j] := by
  rw [List.getD_eq_getElem?_getD, List.getElem?_eq_getElem h]
  rfl

section SlotHelpers

variable {K V : Type} [Inhabited K] [Inhabited V]

/-- An out-of-range `getD` read yields the default (empty) slot. -/
theorem getD_of_length_le (l : List (Slot K V)) (j : Nat) (h : l.length ≤ j) :
    l.getD j Slot.empty = Slot.empty := by
  rw [List.getD_eq_getElem?_getD, List.getElem?_eq_none h]
  rfl

theorem slotAt_set_ne (subs : List (Subarray K V)) (i : Nat) (sub2 : Subarray K V)
    (a b : Nat) (ha : a ≠ i) :
    slotAt (subs.set i sub2) a b = slotAt subs a b := by
  unfold slotAt
  rw [List.getElem?_set_ne (Ne.symm ha)]

theorem slotAt_set_self (subs : List (Subarray K V)) (i : Nat) (sub2 : Subarray K V)
    (b : Nat) (hi : i < subs.length) :
    slotAt (subs.set i sub2) i b = sub2.slots[b]? := by
  unfold slotAt
  rw [List.getElem?_set_self hi]
  rfl

theorem slotAt_cons_succ (sub : Subarray K V) (subs : List (Subarray K V)) (i b : Nat) :
    slotAt (sub :: subs) (i + 1) b = slotAt subs i b := by
  unfold slotAt
  rw [List.getElem?_cons_succ]

theorem slotAt_of_getElem? (subs : List (Subarray K V)) {i : Nat} {sub : Subarray K V}
    (hs : subs[i]? = some sub) (b : Nat) : slotAt subs i b = sub.slots[b]? := by
  unfold slotAt
  rw [hs]
  rfl

end SlotHelpers

section OccupiesLemmas

variable {K V : Type} [Inhabited K] [Inhabited V] [DecidableEq K]

theorem occupiesSlot_iff (subs : List (Subarray K V)) (k : K) (i j : Nat) :
    occupiesSlot subs k i j = true ↔
      ∃ s, slotAt subs i j = some s ∧ s.occupied = true ∧ s.key = k := by
  unfold occupiesSlot
  cases hs : slotAt subs i j with
  | none =>
    constructor
    · intro hx
      cases hx
    · rintro ⟨s, hss, -⟩
      cases hss
  | some s =>
    constructor
    · intro hx
      rw [Bool.and_eq_true, decide_eq_true_eq] at hx
      exact ⟨s, rfl, hx.1, hx.2⟩
    · rintro ⟨s', hss, ho, hk⟩
      obtain rfl : s = s' := Option.some_inj.mp hss
      rw [Bool.and_eq_true, decide_eq_true_eq]
      exact ⟨ho, hk⟩

/-- Building an occupancy witness from a `getD` read. -/
theorem occupiesSlot_of_getD {subs : List (Subarray K V)} {i : Nat} {sub : Subarray K V}
    (hs : subs[i]? = some sub) {n : Nat} {k : K}
    (hocc : (sub.slots.getD n Slot.empty).occupied = true)
    (hkey : (sub.slots.getD n Slot.empty).key = k) :
    occupiesSlot subs k i n = true := by
  have hn : n < sub.slots.length := by
    by_contra hc
    rw [getD_of_length_le sub.slots n (by omega)] at hocc
    exact Bool.false_ne_true hocc
  rw [occupiesSlot_iff]
  exact ⟨sub.slots.getD n Slot.empty,
    by rw [slotAt_of_getElem? subs hs, getElem?_eq_some_getD sub.slots n Slot.empty hn],
    hocc, hkey⟩

/-- Reading an occupancy witness as a `getD` fact. -/
theorem getD_of_occupiesSlot {subs : List (Subarray K V)} {i : Nat} {sub : Subarray K V}
    (hs : subs[i]? = some sub) {n : Nat} {k : K}
    (hx : occupiesSlot subs k i n = true) :
    n < sub.slots.length ∧ (sub.slots.getD n Slot.empty).occupied = true ∧
      (sub.slots.getD n Slot.empty).key = k := by
  rw [occupiesSlot_iff] at hx
  obtain ⟨s, hss, ho, hk⟩ := hx
  rw [slotAt_of_getElem? subs hs] at hss
  have hn : n < sub.slots.length := lt_length_of_getElem? hss
  have he : sub.slots.getD n Slot.empty = s := by
    rw [getElem?_eq_some_getD sub.slots n Slot.empty hn] at hss
    exact Option.some_inj.mp hss
  rw [he]
  exact ⟨hn, ho, hk⟩

/-- If no slot of the map holds `k`, `findSlot` reports `none`. -/
theorem findSlotList_of_absent (hasher : K → Nat) (k : K) :
    ∀ subs : List (Subarray K V), (∀ i j, ¬ occupiesSlot subs k i j = true) →
      findSlotList hasher k subs = none := by
  intro subs
  induction subs with
  | nil => intro hab; rfl
  | cons sub rest ih =>
    intro hab
    simp only [findSlotList]
    rw [findFromAux_eq_none_of_absent sub (hasher k) k (by
      intro n hocc hkey
      exact hab 0 n (occupiesSlot_of_getD (by simp) hocc hkey))]
    rw [ih (by
      intro i j hx
      apply hab (i + 1) j
      unfold occupiesSlot at hx ⊢
      rw [slotAt_cons_succ]
      exact hx)]
    rfl

/-- `findSlot` soundness: a reported location holds an occupied slot with
the searched key. -/
theorem occupiesSlot_of_findSlotList (hasher : K → Nat) (k : K)
    {subs : List (Subarray K V)} (hlen : lenOK subs) {i j : Nat}
    (hx : findSlotList hasher k subs = some (i, j)) :
    occupiesSlot subs k i j = true := by
  obtain ⟨sub, hs, hfind, -⟩ := (findSlotList_eq_some_iff hasher k subs i j).mp hx
  obtain ⟨p, -, hp, hj, ⟨ho, hk⟩, -⟩ :=
    (findFromAux_eq_some_iff sub (hasher k) k (min 16 sub.capacity) 0 j).mp hfind
  rw [hj]
  exact occupiesSlot_of_getD hs ho hk

/-- Under `reachOK`, a key occupies at most one slot. -/
theorem reach_unique {hasher : K → Nat} {subs : List (Subarray K V)}
    (hre : reachOK hasher subs) {k : K} {i j i' j' : Nat}
    (h1 : occupiesSlot subs k i j = true) (h2 : occupiesSlot subs k i' j' = true) :
    i = i' ∧ j = j' := by
  have e1 := hre k i j h1
  have e2 := hre k i' j' h2
  rw [e1] at e2
  have := Option.some_inj.mp e2
  simp only [Prod.mk.injEq] at this
  exact this

/-- Under `reachOK`, a failed lookup means the key is nowhere in the map. -/
theorem absent_of_findSlotList_none {hasher : K → Nat} {subs : List (Subarray K V)}
    (hre : reachOK hasher subs) {k : K}
    (hnone : findSlotList hasher k subs = none) :
    ∀ i j, ¬ occupiesSlot subs k i j = true := by
  intro i j hx
  rw [hre k i j hx] at hnone
  cases hnone

end OccupiesLemmas

/-! ### Effect of a value overwrite (`tryUpdate` success) -/

section UpdateEffect

variable {K V : Type} [Inhabited K] [Inhabited V] [DecidableEq K]

theorem findSlotList_setval (hasher : K → Nat) (k' : K) (v : V) :
    ∀ (subs : List (Subarray K V)) (i j : Nat) (sub : Subarray K V),
      subs[i]? = some sub →
        findSlotList hasher k' (subs.set i (setval sub j v)) =
          findSlotList hasher k' subs := by
  intro subs
  induction subs with
  | nil =>
    intro i j sub hs
    cases hs
  | cons sub0 rest ih =>
    intro i j sub hs
    cases i with
    | zero =>
      rw [List.getElem?_cons_zero] at hs
      obtain rfl : sub0 = sub := Option.some_inj.mp hs
      rw [List.set_cons_zero]
      simp only [findSlotList, setval_capacity, findFromAux_setval]
    | succ i' =>
      rw [List.getElem?_cons_succ] at hs
      rw [List.set_cons_succ]
      simp only [findSlotList]
      rw [ih i' j sub hs]

theorem occupiesSlot_setval {subs : List (Subarray K V)} {i : Nat} {sub : Subarray K V}
    (hs : subs[i]? = some sub) (j : Nat) (v : V) (k' : K) (a b : Nat) :
    occupiesSlot (subs.set i (setval sub j v)) k' a b = occupiesSlot subs k' a b := by
  unfold occupiesSlot
  by_cases ha : a = i
  · subst ha
    rw [slotAt_set_self subs a _ b (lt_length_of_getElem? hs), slotAt_of_getElem? subs hs b]
    show (match (sub.slots.set j _)[b]? with
      | some s => s.occupied && decide (s.key = k')
      | none => false) = _
    rw [List.getElem?_set]
    by_cases hjb : j = b
    · subst hjb
      by_cases hjl : j < sub.slots.length
      · rw [if_pos rfl, if_pos hjl, getElem?_eq_some_getD sub.slots j Slot.empty hjl]
      · rw [if_pos rfl, if_neg hjl,
          List.getElem?_eq_none (show sub.slots.length ≤ j by omega)]
    · rw [if_neg hjb]
  · rw [slotAt_set_ne subs i _ a b ha]

theorem countP_set_occ_of_eq (sub : Subarray K V) (j : Nat) (b : Slot K V)
    (hb : b.occupied = (sub.slots.getD j Slot.empty).occupied) :
    (sub.slots.set j b).countP (·.occupied) = sub.slots.countP (·.occupied) := by
  by_cases hj : j < sub.slots.length
  · rw [List.countP_set _ _ _ _ hj]
    rw [getD_eq_getElem sub.slots j Slot.empty hj] at hb
    simp only [hb]
    cases hpj : sub.slots[j].occupied
    · simp
    · have hpos : 0 < sub.slots.countP (·.occupied) :=
        List.countP_pos.mpr ⟨sub.slots[j], List.getElem_mem hj, hpj⟩
      simp only [if_pos rfl, reduceIte]
      omega
  · rw [List.set_eq_of_length_le (by omega)]

theorem countP_occ_setval (sub : Subarray K V) (j : Nat) (v : V) :
    (setval sub j v).slots.countP (·.occupied) = sub.slots.countP (·.occupied) :=
  countP_set_occ_of_eq sub j _ rfl

theorem countP_occ_place (sub : Subarray K V) (j : Nat) (k : K) (v : V)
    (hj : j < sub.slots.length)
    (hemp : (sub.slots.getD j Slot.empty).occupied = false) :
    (placeSlot sub j k v).slots.countP (·.occupied) =
      sub.slots.countP (·.occupied) + 1 := by
  show (sub.slots.set j _).countP _ = _
  rw [List.countP_set _ _ _ _ hj]
  rw [getD_eq_getElem sub.slots j Slot.empty hj] at hemp
  simp [hemp]

end UpdateEffect

/-! ### Effect of a slot placement (`doInsert` success) -/

section PlaceEffect

variable {K V : Type} [Inhabited K] [Inhabited V] [DecidableEq K]

theorem occupiesSlot_place_iff {subs : List (Subarray K V)} {i : Nat} {sub : Subarray K V}
    (hs : subs[i]? = some sub) {j : Nat} (hj : j < sub.slots.length)
    (hemp : (sub.slots.getD j Slot.empty).occupied = false)
    (k : K) (v : V) (k'' : K) (a b : Nat) :
    occupiesSlot (subs.set i (placeSlot sub j k v)) k'' a b = true ↔
      (a = i ∧ b = j ∧ k'' = k) ∨ occupiesSlot subs k'' a b = true := by
  by_cases ha : a = i
  · subst ha
    by_cases hb : b = j
    · subst hb
      constructor
      · intro hx
        rw [occupiesSlot_iff] at hx
        obtain ⟨s, hss, ho, hk⟩ := hx
        rw [slotAt_set_self subs a _ b (lt_length_of_getElem? hs)] at hss
        have : (placeSlot sub b k v).slots[b]? = some (⟨true, k, v⟩ : Slot K V) := by
          show (sub.slots.set b _)[b]? = _
          rw [List.getElem?_set_self hj]
        rw [this] at hss
        obtain rfl := Option.some_inj.mp hss
        exact Or.inl ⟨rfl, rfl, hk.symm ▸ rfl⟩
      · intro hx
        rcases hx with ⟨-, -, hk⟩ | hx
        · subst hk
          rw [occupiesSlot_iff]
          refine ⟨⟨true, k'', v⟩, ?_, rfl, rfl⟩
          rw [slotAt_set_self subs a _ b (lt_length_of_getElem? hs)]
          show (sub.slots.set b _)[b]? = _
          rw [List.getElem?_set_self hj]
        · exfalso
          obtain ⟨hbl, ho, -⟩ := getD_of_occupiesSlot hs hx
          rw [hemp] at ho
          exact Bool.false_ne_true ho
    · have heq : slotAt (subs.set a (placeSlot sub j k v)) a b = slotAt subs a b := by
        rw [slotAt_set_self subs a _ b (lt_length_of_getElem? hs),
          slotAt_of_getElem? subs hs b]
        show (sub.slots.set j _)[b]? = _
        rw [List.getElem?_set_ne (fun h => hb h.symm)]
      unfold occupiesSlot
      rw [heq]
      constructor
      · exact Or.inr
      · intro hx
        rcases hx with ⟨-, hbj, -⟩ | hx
        · exact absurd hbj hb
        · exact hx
  · have heq := slotAt_set_ne subs i (placeSlot sub j k v) a b ha
    unfold occupiesSlot
    rw [heq]
    constructor
    · exact Or.inr
    · intro hx
      rcases hx with ⟨hai, -, -⟩ | hx
      · exact absurd hai ha
      · exact hx

theorem insert_step (hasher : K → Nat) (k : K) (v : V)
    {subs subs' : List (Subarray K V)}
    (hnone : findSlotList hasher k subs = none)
    (hx : doInsertList hasher k v subs = (subs', true)) :
    ∃ (i : Nat) (sub : Subarray K V) (p : Nat),
      subs[i]? = some sub ∧ p < min 16 sub.capacity ∧
      sub.size * 10 < sub.capacity * 9 ∧
      (sub.slots.getD ((hasher k + p) % sub.capacity) Slot.empty).occupied = false ∧
      (∀ q, q < p →
        (sub.slots.getD ((hasher k + q) % sub.capacity) Slot.empty).occupied = true ∧
        ¬ (sub.slots.getD ((hasher k + q) % sub.capacity) Slot.empty).key = k) ∧
      subs' = subs.set i (placeSlot sub ((hasher k + p) % sub.capacity) k v) := by
  obtain ⟨i, sub, sub2, hs, hg, hf, hset⟩ := doInsertList_of_true hasher k v subs subs' hx
  obtain ⟨p, hp0, hp, hpre, hdisj⟩ :=
    doInsertFromAux_spec sub (hasher k) k v (min 16 sub.capacity) 0 sub2 hf
  have hfnone : findFromAux sub (hasher k) k 0 (min 16 sub.capacity) = none :=
    (findSlotList_eq_none_iff hasher k subs).mp hnone sub (mem_of_getElem? hs)
  rcases hdisj with ⟨hemp, hplace⟩ | ⟨hocc, hkey, -⟩
  · exact ⟨i, sub, p, hs, by omega, hg, hemp, fun q hq => hpre q (by omega) hq,
      by rw [hset, hplace]⟩
  · exfalso
    have hsome : findFromAux sub (hasher k) k 0 (min 16 sub.capacity) =
        some ((hasher k + p) % sub.capacity) :=
      (findFromAux_eq_some_iff sub (hasher k) k (min 16 sub.capacity) 0 _).mpr
        ⟨p, by omega, by omega, rfl, ⟨hocc, hkey⟩, fun q hq1 hq2 => hpre q (by omega) hq2⟩
    rw [hfnone] at hsome
    cases hsome

theorem findSlot_after_place (hasher : K → Nat) (k : K) (v : V)
    {subs : List (Subarray K V)} (hlen : lenOK subs)
    (hnone : findSlotList hasher k subs = none)
    {i : Nat} {sub : Subarray K V} {p : Nat}
    (hs : subs[i]? = some sub) (hp : p < min 16 sub.capacity)
    (hemp : (sub.slots.getD ((hasher k + p) % sub.capacity) Slot.empty).occupied = false)
    (hpre : ∀ q, q < p →
      (sub.slots.getD ((hasher k + q) % sub.capacity) Slot.empty).occupied = true ∧
      ¬ (sub.slots.getD ((hasher k + q) % sub.capacity) Slot.empty).key = k) :
    findSlotList hasher k
        (subs.set i (placeSlot sub ((hasher k + p) % sub.capacity) k v)) =
      some (i, (hasher k + p) % sub.capacity) := by
  have hcap : 0 < sub.capacity := by omega
  have hjlt : (hasher k + p) % sub.capacity < sub.capacity := Nat.mod_lt _ hcap
  have hlensub : sub.slots.length = sub.capacity := hlen sub (mem_of_getElem? hs)
  apply (findSlotList_eq_some_iff hasher k _ i ((hasher k + p) % sub.capacity)).mpr
  refine ⟨placeSlot sub ((hasher k + p) % sub.capacity) k v,
    by rw [List.getElem?_set_self (lt_length_of_getElem? hs)], ?_, ?_⟩
  · apply (findFromAux_eq_some_iff _ (hasher k) k _ 0 _).mpr
    refine ⟨p, by omega, ?_, ?_, ⟨?_, ?_⟩, ?_⟩
    · show p < 0 + min 16 sub.capacity
      omega
    · show (hasher k + p) % sub.capacity = (hasher k + p) % sub.capacity
      rfl
    · show ((placeSlot sub ((hasher k + p) % sub.capacity) k v).slots.getD
        ((hasher k + p) % sub.capacity) Slot.empty).occupied = true
      rw [placeSlot_getD, if_pos ⟨rfl, by omega⟩]
    · show ((placeSlot sub ((hasher k + p) % sub.capacity) k v).slots.getD
        ((hasher k + p) % sub.capacity) Slot.empty).key = k
      rw [placeSlot_getD, if_pos ⟨rfl, by omega⟩]
    · intro q hq0 hq
      have hqlt : (hasher k + q) % sub.capacity < sub.capacity := Nat.mod_lt _ hcap
      have hne : (hasher k + p) % sub.capacity ≠ (hasher k + q) % sub.capacity :=
        probe_mod_ne (hasher k) sub.capacity p q (by omega) (by omega) (by omega)
      constructor
      · show ((placeSlot sub ((hasher k + p) % sub.capacity) k v).slots.getD
          ((hasher k + q) % sub.capacity) Slot.empty).occupied = true
        rw [placeSlot_getD, if_neg (by tauto)]
        exact (hpre q hq).1
      · show ¬ ((placeSlot sub ((hasher k + p) % sub.capacity) k v).slots.getD
          ((hasher k + q) % sub.capacity) Slot.empty).key = k
        rw [placeSlot_getD, if_neg (by tauto)]
        exact (hpre q hq).2
  · intro e he sub_e hse
    rw [List.getElem?_set_ne (by omega : i ≠ e)] at hse
    exact (findSlotList_eq_none_iff hasher k subs).mp hnone sub_e (mem_of_getElem? hse)

theorem findSlot_place_other (hasher : K → Nat) (k : K) (v : V)
    {subs : List (Subarray K V)} (hlen : lenOK subs) (hre : reachOK hasher subs)
    (hnone : findSlotList hasher k subs = none)
    {i : Nat} {sub : Subarray K V} {p : Nat}
    (hs : subs[i]? = some sub) (hp : p < min 16 sub.capacity)
    (hemp : (sub.slots.getD ((hasher k + p) % sub.capacity) Slot.empty).occupied = false)
    (k' : K) (hkne : ¬ k' = k) :
    findSlotList hasher k'
        (subs.set i (placeSlot sub ((hasher k + p) % sub.capacity) k v)) =
      findSlotList hasher k' subs := by
  have hcap : 0 < sub.capacity := by omega
  have hjlt : (hasher k + p) % sub.capacity < sub.capacity := Nat.mod_lt _ hcap
  have hlensub : sub.slots.length = sub.capacity := hlen sub (mem_of_getElem? hs)
  cases hold : findSlotList hasher k' subs with
  | none =>
    apply findSlotList_of_absent
    intro a b hx
    rw [occupiesSlot_place_iff hs (by omega) hemp k v k' a b] at hx
    rcases hx with ⟨-, -, hk⟩ | hx
    · exact hkne hk
    · exact absent_of_findSlotList_none hre hold a b hx
  | some loc =>
    obtain ⟨a, b⟩ := loc
    obtain ⟨sub_a, hsa, hfa, hprev⟩ := (findSlotList_eq_some_iff hasher k' subs a b).mp hold
    apply (findSlotList_eq_some_iff hasher k' _ a b).mpr
    by_cases hai : a = i
    · subst hai
      obtain rfl : sub = sub_a := by
        rw [hs] at hsa
        exact Option.some_inj.mp hsa
      refine ⟨placeSlot sub ((hasher k + p) % sub.capacity) k v,
        by rw [List.getElem?_set_self (lt_length_of_getElem? hs)], ?_, ?_⟩
      · obtain ⟨p', hp'0, hp'lt, hbj, ⟨hbo, hbk⟩, hbpre⟩ :=
          (findFromAux_eq_some_iff sub (hasher k') k' (min 16 sub.capacity) 0 b).mp hfa
        apply (findFromAux_eq_some_iff _ (hasher k') k' _ 0 _).mpr
        have hbne : (hasher k + p) % sub.capacity ≠ (hasher k' + p') % sub.capacity := by
          intro he
          rw [← he] at hbo
          rw [hemp] at hbo
          exact Bool.false_ne_true hbo
        refine ⟨p', by omega, ?_, ?_, ⟨?_, ?_⟩, ?_⟩
        · show p' < 0 + min 16 sub.capacity
          omega
        · show b = (hasher k' + p') % sub.capacity
          exact hbj
        · show ((placeSlot sub ((hasher k + p) % sub.capacity) k v).slots.getD
            ((hasher k' + p') % sub.capacity) Slot.empty).occupied = true
          rw [placeSlot_getD, if_neg (by tauto)]
          exact hbo
        · show ((placeSlot sub ((hasher k + p) % sub.capacity) k v).slots.getD
            ((hasher k' + p') % sub.capacity) Slot.empty).key = k'
          rw [placeSlot_getD, if_neg (by tauto)]
          exact hbk
        · intro q hq0 hq
          obtain ⟨hqo, hqk⟩ := hbpre q hq0 hq
          have hqne : (hasher k + p) % sub.capacity ≠ (hasher k' + q) % sub.capacity := by
            intro he
            rw [← he] at hqo
            rw [hemp] at hqo
            exact Bool.false_ne_true hqo
          constructor
          · show ((placeSlot sub ((hasher k + p) % sub.capacity) k v).slots.getD
              ((hasher k' + q) % sub.capacity) Slot.empty).occupied = true
            rw [placeSlot_getD, if_neg (by tauto)]
            exact hqo
          · show ¬ ((placeSlot sub ((hasher k + p) % sub.capacity) k v).slots.getD
              ((hasher k' + q) % sub.capacity) Slot.empty).key = k'
            rw [placeSlot_getD, if_neg (by tauto)]
            exact hqk
      · intro e he sub_e hse
        rw [List.getElem?_set_ne (by omega : a ≠ e)] at hse
        exact hprev e he sub_e hse
    · refine ⟨sub_a,
        by rw [List.getElem?_set_ne (show i ≠ a from fun h => hai h.symm)]; exact hsa,
        hfa, ?_⟩
      intro e he sub_e hse
      by_cases hei : e = i
      · subst hei
        rw [List.getElem?_set_self (lt_length_of_getElem? hs)] at hse
        obtain rfl := Option.some_inj.mp hse
        apply findFromAux_eq_none_of_absent
        intro n hno hnk
        rw [placeSlot_getD] at hno hnk
        by_cases hnj : (hasher k + p) % sub.capacity = n ∧
            (hasher k + p) % sub.capacity < sub.slots.length
        · rw [if_pos hnj] at hnk
          exact hkne hnk.symm
        · rw [if_neg hnj] at hno hnk
          have hocc := occupiesSlot_of_getD hs hno hnk
          rw [hre k' e n hocc] at hold
          have heq := Option.some_inj.mp hold
          simp only [Prod.mk.injEq] at heq
          exact hai heq.1.symm
      · rw [List.getElem?_set_ne (show i ≠ e from fun h => hei h.symm)] at hse
        exact hprev e he sub_e hse

theorem reachOK_setval {hasher : K → Nat} {subs : List (Subarray K V)}
    (hre : reachOK hasher subs) {i : Nat} {sub : Subarray K V}
    (hs : subs[i]? = some sub) (j : Nat) (v : V) :
    reachOK hasher (subs.set i (setval sub j v)) := by
  intro k' a b hx
  rw [occupiesSlot_setval hs j v k' a b] at hx
  rw [findSlotList_setval hasher k' v subs i j sub hs]
  exact hre k' a b hx

theorem reachOK_place {hasher : K → Nat} (k : K) (v : V)
    {subs : List (Subarray K V)} (hlen : lenOK subs) (hre : reachOK hasher subs)
    (hnone : findSlotList hasher k subs = none)
    {i : Nat} {sub : Subarray K V} {p : Nat}
    (hs : subs[i]? = some sub) (hp : p < min 16 sub.capacity)
    (hemp : (sub.slots.getD ((hasher k + p) % sub.capacity) Slot.empty).occupied = false)
    (hpre : ∀ q, q < p →
      (sub.slots.getD ((hasher k + q) % sub.capacity) Slot.empty).occupied = true ∧
      ¬ (sub.slots.getD ((hasher k + q) % sub.capacity) Slot.empty).key = k) :
    reachOK hasher (subs.set i (placeSlot sub ((hasher k + p) % sub.capacity) k v)) := by
  have hcap : 0 < sub.capacity := by omega
  have hjlt : (hasher k + p) % sub.capacity < sub.capacity := Nat.mod_lt _ hcap
  have hlensub : sub.slots.length = sub.capacity := hlen sub (mem_of_getElem? hs)
  intro k'' a b hx
  rw [occupiesSlot_place_iff hs (by omega) hemp k v k'' a b] at hx
  rcases hx with ⟨ha, hb, hk⟩ | hx
  · subst ha
    subst hb
    subst hk
    exact findSlot_after_place hasher k'' v hlen hnone hs hp hemp hpre
  · have hkne : ¬ k'' = k := by
      intro he
      subst he
      rw [hre k'' a b hx] at hnone
      cases hnone
    rw [findSlot_place_other hasher k v hlen hre hnone hs hp hemp k'' hkne]
    exact hre k'' a b hx

theorem subsLe_refl (subs : List (Subarray K V)) : subsLe subs subs := by
  refine ⟨rfl, ?_⟩
  intro i sub sub' h1 h2
  rw [h1] at h2
  obtain rfl := Option.some_inj.mp h2
  exact ⟨rfl, le_refl _, rfl⟩

theorem subsLe_set {subs : List (Subarray K V)} {i : Nat} {sub : Subarray K V}
    (hs : subs[i]? = some sub) (sub2 : Subarray K V)
    (hc : sub.capacity = sub2.capacity) (hsz : sub.size ≤ sub2.size)
    (hl : sub.slots.length = sub2.slots.length) :
    subsLe subs (subs.set i sub2) := by
  refine ⟨(List.length_set subs i sub2).symm, ?_⟩
  intro a subA subA' h1 h2
  by_cases ha : i = a
  · subst ha
    rw [List.getElem?_set_self (lt_length_of_getElem? hs)] at h2
    obtain rfl := Option.some_inj.mp h2
    rw [hs] at h1
    obtain rfl := Option.some_inj.mp h1
    exact ⟨hc, hsz, hl⟩
  · rw [List.getElem?_set_ne ha] at h2
    rw [h1] at h2
    obtain rfl := Option.some_inj.mp h2
    exact ⟨rfl, le_refl _, rfl⟩

end PlaceEffect

/-! ### The one-operation preservation lemma -/

section StepSpec

variable {K V : Type} [Inhabited K] [Inhabited V] [DecidableEq K]

theorem occupiesSlot_key_unique {subs : List (Subarray K V)} {q k : K} {a b : Nat}
    (h1 : occupiesSlot subs q a b = true) (h2 : occupiesSlot subs k a b = true) :
    q = k := by
  rw [occupiesSlot_iff] at h1 h2
  obtain ⟨s, hs1, -, hk1⟩ := h1
  obtain ⟨s', hs2, -, hk2⟩ := h2
  rw [hs1] at hs2
  obtain rfl := Option.some_inj.mp hs2
  rw [← hk1, ← hk2]

theorem update_case_spec (m : ElasticHashMap K V) (k : K) (v : V)
    (hinv : INV m) {i j : Nat}
    (hold : findSlotList m.m_hasher k m.subarrays = some (i, j)) {sub : Subarray K V}
    (hs : m.subarrays[i]? = some sub) :
    INV { m with subarrays := m.subarrays.set i (setval sub j v) } ∧
      subsLe m.subarrays (m.subarrays.set i (setval sub j v)) ∧
      ∀ q : K, valueOf { m with subarrays := m.subarrays.set i (setval sub j v) } q =
        if q = k then some v else valueOf m q := by
  obtain ⟨hlen, hsize, hre⟩ := hinv
  obtain ⟨sub0, hs0, hfind, -⟩ := (findSlotList_eq_some_iff m.m_hasher k m.subarrays i j).mp hold
  rw [hs] at hs0
  obtain rfl : sub = sub0 := Option.some_inj.mp hs0
  obtain ⟨p, -, hp, hj, ⟨hocc, hkey⟩, -⟩ :=
    (findFromAux_eq_some_iff sub (m.m_hasher k) k (min 16 sub.capacity) 0 j).mp hfind
  have hcap : 0 < sub.capacity := by omega
  have hlensub : sub.slots.length = sub.capacity := hlen sub (mem_of_getElem? hs)
  have hjlt : j < sub.slots.length := by
    rw [hj, hlensub]
    exact Nat.mod_lt _ hcap
  refine ⟨⟨?_, ?_, ?_⟩, ?_, ?_⟩
  · intro sub' hmem
    rcases List.mem_or_eq_of_mem_set hmem with hm | he
    · exact hlen sub' hm
    · rw [he, setval_slots_length, setval_capacity]
      exact hlensub
  · intro sub' hmem
    rcases List.mem_or_eq_of_mem_set hmem with hm | he
    · exact hsize sub' hm
    · rw [he, setval_size, countP_occ_setval]
      exact hsize sub (mem_of_getElem? hs)
  · show reachOK m.m_hasher (m.subarrays.set i (setval sub j v))
    exact reachOK_setval hre hs j v
  · exact subsLe_set hs _ rfl (le_refl _) (setval_slots_length sub j v).symm
  · intro q
    show (findSlotList m.m_hasher q (m.subarrays.set i (setval sub j v))).bind
        (fun loc => (slotAt (m.subarrays.set i (setval sub j v)) loc.1 loc.2).map
          Slot.value) =
      if q = k then some v
      else (findSlotList m.m_hasher q m.subarrays).bind
        (fun loc => (slotAt m.subarrays loc.1 loc.2).map Slot.value)
    rw [findSlotList_setval m.m_hasher q v m.subarrays i j sub hs]
    by_cases hq : q = k
    · subst hq
      rw [if_pos rfl, hold]
      show (slotAt (m.subarrays.set i (setval sub j v)) i j).map Slot.value = some v
      rw [slotAt_set_self m.subarrays i _ j (lt_length_of_getElem? hs)]
      show ((sub.slots.set j _)[j]?).map Slot.value = some v
      rw [List.getElem?_set_self hjlt]
      rfl
    · rw [if_neg hq]
      cases holdq : findSlotList m.m_hasher q m.subarrays with
      | none => rfl
      | some loc =>
        obtain ⟨a, b⟩ := loc
        show (slotAt (m.subarrays.set i (setval sub j v)) a b).map Slot.value =
          (slotAt m.subarrays a b).map Slot.value
        have hneab : ¬ (a = i ∧ b = j) := by
          rintro ⟨rfl, rfl⟩
          have h1 := occupiesSlot_of_findSlotList m.m_hasher q hlen holdq
          have h2 := occupiesSlot_of_findSlotList m.m_hasher k hlen hold
          exact hq (occupiesSlot_key_unique h1 h2)
        by_cases ha : a = i
        · subst ha
          have hbj : ¬ b = j := fun h => hneab ⟨rfl, h⟩
          rw [slotAt_set_self m.subarrays a _ b (lt_length_of_getElem? hs),
            slotAt_of_getElem? m.subarrays hs b]
          show ((sub.slots.set j _)[b]?).map Slot.value = _
          rw [List.getElem?_set_ne (fun h => hbj h.symm)]
        · rw [slotAt_set_ne m.subarrays i _ a b ha]

theorem insert_case_spec (m : ElasticHashMap K V) (k : K) (v : V)
    (hinv : INV m)
    (hnone : findSlotList m.m_hasher k m.subarrays = none)
    {subs' : List (Subarray K V)}
    (hx : doInsertList m.m_hasher k v m.subarrays = (subs', true)) :
    INV { m with subarrays := subs' } ∧ subsLe m.subarrays subs' ∧
      ∀ q : K, valueOf { m with subarrays := subs' } q =
        if q = k then some v else valueOf m q := by
  obtain ⟨hlen, hsize, hre⟩ := hinv
  obtain ⟨i, sub, p, hs, hp, hg, hemp, hpre, hset⟩ := insert_step m.m_hasher k v hnone hx
  subst hset
  have hcap : 0 < sub.capacity := by omega
  have hjlt : (m.m_hasher k + p) % sub.capacity < sub.capacity := Nat.mod_lt _ hcap
  have hlensub : sub.slots.length = sub.capacity := hlen sub (mem_of_getElem? hs)
  refine ⟨⟨?_, ?_, ?_⟩, ?_, ?_⟩
  · intro sub' hmem
    rcases List.mem_or_eq_of_mem_set hmem with hm | he
    · exact hlen sub' hm
    · rw [he, placeSlot_slots_length, placeSlot_capacity]
      exact hlensub
  · intro sub' hmem
    rcases List.mem_or_eq_of_mem_set hmem with hm | he
    · exact hsize sub' hm
    · rw [he, placeSlot_size, countP_occ_place sub _ k v (by omega) hemp]
      rw [hsize sub (mem_of_getElem? hs)]
  · show reachOK m.m_hasher
      (m.subarrays.set i (placeSlot sub ((m.m_hasher k + p) % sub.capacity) k v))
    exact reachOK_place k v hlen hre hnone hs hp hemp hpre
  · exact subsLe_set hs _ rfl (by rw [placeSlot_size]; omega)
      (placeSlot_slots_length sub _ k v).symm
  · intro q
    show (findSlotList m.m_hasher q
        (m.subarrays.set i (placeSlot sub ((m.m_hasher k + p) % sub.capacity) k v))).bind
        (fun loc => (slotAt
          (m.subarrays.set i (placeSlot sub ((m.m_hasher k + p) % sub.capacity) k v))
          loc.1 loc.2).map Slot.value) =
      if q = k then some v
      else (findSlotList m.m_hasher q m.subarrays).bind
        (fun loc => (slotAt m.subarrays loc.1 loc.2).map Slot.value)
    by_cases hq : q = k
    · subst hq
      rw [if_pos rfl, findSlot_after_place m.m_hasher q v hlen hnone hs hp hemp hpre]
      show (slotAt
          (m.subarrays.set i (placeSlot sub ((m.m_hasher q + p) % sub.capacity) q v))
          i ((m.m_hasher q + p) % sub.capacity)).map Slot.value = some v
      rw [slotAt_set_self m.subarrays i _ _ (lt_length_of_getElem? hs)]
      show ((sub.slots.set ((m.m_hasher q + p) % sub.capacity) _)[
        ((m.m_hasher q + p) % sub.capacity)]?).map Slot.value = some v
      rw [List.getElem?_set_self (by omega)]
      rfl
    · rw [if_neg hq, findSlot_place_other m.m_hasher k v hlen hre hnone hs hp hemp q hq]
      cases holdq : findSlotList m.m_hasher q m.subarrays with
      | none => rfl
      | some loc =>
        obtain ⟨a, b⟩ := loc
        show (slotAt
            (m.subarrays.set i (placeSlot sub ((m.m_hasher k + p) % sub.capacity) k v))
            a b).map Slot.value = (slotAt m.subarrays a b).map Slot.value
        have hoq := occupiesSlot_of_findSlotList m.m_hasher q hlen holdq
        by_cases ha : a = i
        · subst ha
          have hbj : ¬ b = (m.m_hasher k + p) % sub.capacity := by
            intro he
            obtain ⟨hbl, hbo, -⟩ := getD_of_occupiesSlot hs hoq
            rw [he] at hbo
            rw [hemp] at hbo
            exact Bool.false_ne_true hbo
          rw [slotAt_set_self m.subarrays a _ b (lt_length_of_getElem? hs),
            slotAt_of_getElem? m.subarrays hs b]
          show ((sub.slots.set ((m.m_hasher k + p) % sub.capacity) _)[b]?).map
            Slot.value = _
          rw [List.getElem?_set_ne (fun h => hbj h.symm)]
        · rw [slotAt_set_ne m.subarrays i _ a b ha]

theorem insertOrUpdateSt_spec (m : ElasticHashMap K V) (k : K) (v : V) (hinv : INV m) :
    INV (insertOrUpdateSt m k v).1 ∧
      (insertOrUpdateSt m k v).1.m_hasher = m.m_hasher ∧
      subsLe m.subarrays (insertOrUpdateSt m k v).1.subarrays ∧
      ((insertOrUpdateSt m k v).2 = true →
        ∀ q : K, valueOf (insertOrUpdateSt m k v).1 q =
          if q = k then some v else valueOf m q) := by
  cases hold : findSlotList m.m_hasher k m.subarrays with
  | some loc =>
    obtain ⟨i, j⟩ := loc
    obtain ⟨sub, hs, -, -⟩ := (findSlotList_eq_some_iff m.m_hasher k m.subarrays i j).mp hold
    have htr := tryUpdateList_of_some m.m_hasher k v m.subarrays i j sub hold hs
    have hins : insertOrUpdateSt m k v =
        ({ m with subarrays := m.subarrays.set i (setval sub j v) }, true) := by
      unfold insertOrUpdateSt
      rw [htr]
      rfl
    obtain ⟨hinv', hle, hval⟩ := update_case_spec m k v ⟨hinv.1, hinv.2.1, hinv.2.2⟩ hold hs
    rw [hins]
    exact ⟨hinv', rfl, hle, fun _ => hval⟩
  | none =>
    have htr := tryUpdateList_of_none m.m_hasher k v m.subarrays hold
    have hins : insertOrUpdateSt m k v =
        ({ m with subarrays := (doInsertList m.m_hasher k v m.subarrays).1 },
          (doInsertList m.m_hasher k v m.subarrays).2) := by
      unfold insertOrUpdateSt
      rw [htr]
      rfl
    rw [hins]
    cases hdo : (doInsertList m.m_hasher k v m.subarrays).2 with
    | false =>
      rw [doInsertList_of_false m.m_hasher k v m.subarrays hdo]
      refine ⟨hinv, rfl, subsLe_refl _, ?_⟩
      intro hcontra
      exact absurd hcontra Bool.false_ne_true
    | true =>
      have hpair : doInsertList m.m_hasher k v m.subarrays =
          ((doInsertList m.m_hasher k v m.subarrays).1, true) := by
        rw [← hdo]
      obtain ⟨hinv', hle, hval⟩ := insert_case_spec m k v ⟨hinv.1, hinv.2.1, hinv.2.2⟩ hold hpair
      exact ⟨hinv', rfl, hle, fun _ => hval⟩

theorem Subarray_eq_of_fields {X Y : Subarray K V} (h1 : X.slots = Y.slots)
    (h2 : X.size = Y.size) (h3 : X.capacity = Y.capacity) : X = Y := by
  cases X
  cases Y
  rw [Subarray.mk.injEq]
  exact ⟨h1, h2, h3⟩

/-- `insertOrUpdate` when `tryUpdate` finds the key: the found slot's value
is overwritten in place. -/
theorem insertOrUpdateSt_eq_of_found (m : ElasticHashMap K V) (k : K) (v : V)
    {i j : Nat} {sub : Subarray K V}
    (hold : findSlotList m.m_hasher k m.subarrays = some (i, j))
    (hs : m.subarrays[i]? = some sub) :
    insertOrUpdateSt m k v =
      ({ m with subarrays := m.subarrays.set i (setval sub j v) }, true) := by
  have htr := tryUpdateList_of_some m.m_hasher k v m.subarrays i j sub hold hs
  unfold insertOrUpdateSt
  rw [htr]
  rfl

/-- `insertOrUpdate` when `tryUpdate` fails: the whole call is `doInsert`. -/
theorem insertOrUpdateSt_eq_of_insert (m : ElasticHashMap K V) (k : K) (v : V)
    (hnone : findSlotList m.m_hasher k m.subarrays = none) :
    insertOrUpdateSt m k v =
      ({ m with subarrays := (doInsertList m.m_hasher k v m.subarrays).1 },
        (doInsertList m.m_hasher k v m.subarrays).2) := by
  have htr := tryUpdateList_of_none m.m_hasher k v m.subarrays hnone
  unfold insertOrUpdateSt
  rw [htr]
  rfl

/-- Re-overwriting the same slot with the same value is the identity. -/
theorem setval_setval (sub : Subarray K V) (j : Nat) (v : V)
    (hjlt : j < sub.slots.length) :
    setval (setval sub j v) j v = setval sub j v := by
  refine Subarray_eq_of_fields ?_ rfl rfl
  show (sub.slots.set j { sub.slots.getD j Slot.empty with value := v }).set j
      { (sub.slots.set j { sub.slots.getD j Slot.empty with value := v }).getD j
        Slot.empty with value := v } =
    sub.slots.set j { sub.slots.getD j Slot.empty with value := v }
  rw [List.set_set, getD_set_self sub.slots j _ Slot.empty hjlt]

/-- Overwriting a just-placed slot's value with the same value is the
identity. -/
theorem setval_placeSlot (sub : Subarray K V) (j : Nat) (k : K) (v : V)
    (hjlt : j < sub.slots.length) :
    setval (placeSlot sub j k v) j v = placeSlot sub j k v := by
  refine Subarray_eq_of_fields ?_ rfl rfl
  show (sub.slots.set j ⟨true, k, v⟩).set j
      { (sub.slots.set j ⟨true, k, v⟩).getD j Slot.empty with value := v } =
    sub.slots.set j ⟨true, k, v⟩
  rw [List.set_set, getD_set_self sub.slots j _ Slot.empty hjlt]

theorem valueOf_of_findSlot_none {m : ElasticHashMap K V} {k : K}
    (hfs : findSlotList m.m_hasher k m.subarrays = none) : valueOf m k = none := by
  show (findSlotList m.m_hasher k m.subarrays).bind _ = none
  rw [hfs]
  rfl

theorem valueOf_isSome_of_findSlot {m : ElasticHashMap K V} (hlen : lenOK m.subarrays)
    {k : K} {i j : Nat}
    (hfs : findSlotList m.m_hasher k m.subarrays = some (i, j)) :
    ∃ w, valueOf m k = some w := by
  have hocc := occupiesSlot_of_findSlotList m.m_hasher k hlen hfs
  rw [occupiesSlot_iff] at hocc
  obtain ⟨s, hss, -, -⟩ := hocc
  refine ⟨s.value, ?_⟩
  show (findSlotList m.m_hasher k m.subarrays).bind _ = _
  rw [hfs, Option.some_bind, hss]
  rfl

theorem runOp_spec (m : ElasticHashMap K V) (op : Op K V) (hinv : INV m) :
    INV (runOp m op).1 ∧
      (runOp m op).1.m_hasher = m.m_hasher ∧
      subsLe m.subarrays (runOp m op).1.subarrays ∧
      ((runOp m op).2 = true →
        ∀ q : K, valueOf (runOp m op).1 q = applyModel (valueOf m) op q) := by
  cases op with
  | put k v =>
    obtain ⟨h1, h2, h3, h4⟩ := insertOrUpdateSt_spec m k v hinv
    exact ⟨h1, h2, h3, fun hf q => h4 hf q⟩
  | countK k => exact ⟨hinv, rfl, subsLe_refl _, fun _ q => rfl⟩
  | getDefault k =>
    cases hfs : findSlotList m.m_hasher k m.subarrays with
    | some loc =>
      have hg : getOrInsertSt m k = (m, .ok (derefValue m.subarrays loc)) := by
        unfold getOrInsertSt
        show (match findSlotList m.m_hasher k m.subarrays with
          | some loc => (m, Except.ok (derefValue m.subarrays loc))
          | none => _) = _
        rw [hfs]
      have hro : runOp m (.getDefault k) = (m, true) := by
        show (let r := getOrInsertSt m k;
          (r.1, match r.2 with | .ok _ => true | .error _ => false)) = (m, true)
        rw [hg]
      rw [hro]
      refine ⟨hinv, rfl, subsLe_refl _, ?_⟩
      intro _ q
      show valueOf m q = applyModel (valueOf m) (.getDefault k) q
      show valueOf m q = if q = k then some ((valueOf m k).getD default) else valueOf m q
      by_cases hq : q = k
      · subst hq
        rw [if_pos rfl]
        obtain ⟨i, j⟩ := loc
        obtain ⟨w, hw⟩ := valueOf_isSome_of_findSlot hinv.1 hfs
        rw [hw]
        rfl
      · rw [if_neg hq]
    | none =>
      obtain ⟨h1, h2, h3, h4⟩ := insertOrUpdateSt_spec m k default hinv
      cases hr2 : (insertOrUpdateSt m k default).2 with
      | false =>
        have hst := insertOrUpdateSt_of_false m k default hr2
        have hg : getOrInsertSt m k = ((insertOrUpdateSt m k default).1,
            .error capacityMsg) := by
          unfold getOrInsertSt
          show (match findSlotList m.m_hasher k m.subarrays with
            | some loc => (m, Except.ok (derefValue m.subarrays loc))
            | none => _) = _
          rw [hfs]
          show (if (insertOrUpdateSt m k default).2 = true then _ else _) = _
          rw [hr2, if_neg Bool.false_ne_true]
        have hro : runOp m (.getDefault k) =
            ((insertOrUpdateSt m k default).1, false) := by
          show (let r := getOrInsertSt m k;
            (r.1, match r.2 with | .ok _ => true | .error _ => false)) = _
          rw [hg]
        rw [hro, hst]
        exact ⟨hinv, rfl, subsLe_refl _, fun hc => absurd hc Bool.false_ne_true⟩
      | true =>
        have hval := h4 hr2
        have hvk : valueOf (insertOrUpdateSt m k default).1 k = some default := by
          rw [hval k, if_pos rfl]
        obtain ⟨loc2, hloc2, -⟩ := Option.bind_eq_some.mp hvk
        have hg : getOrInsertSt m k = ((insertOrUpdateSt m k default).1,
            .ok (derefValue (insertOrUpdateSt m k default).1.subarrays loc2)) := by
          unfold getOrInsertSt
          show (match findSlotList m.m_hasher k m.subarrays with
            | some loc => (m, Except.ok (derefValue m.subarrays loc))
            | none => _) = _
          rw [hfs]
          show (if (insertOrUpdateSt m k default).2 = true then _ else _) = _
          rw [hr2, if_pos rfl]
          show (match findSlotList (insertOrUpdateSt m k default).1.m_hasher k
              (insertOrUpdateSt m k default).1.subarrays with
            | some loc => ((insertOrUpdateSt m k default).1,
                Except.ok (derefValue (insertOrUpdateSt m k default).1.subarrays loc))
            | none => ((insertOrUpdateSt m k default).1, Except.error invariantMsg)) = _
          rw [show findSlotList (insertOrUpdateSt m k default).1.m_hasher k
              (insertOrUpdateSt m k default).1.subarrays = some loc2 from hloc2]
        have hro : runOp m (.getDefault k) =
            ((insertOrUpdateSt m k default).1, true) := by
          show (let r := getOrInsertSt m k;
            (r.1, match r.2 with | .ok _ => true | .error _ => false)) = _
          rw [hg]
        rw [hro]
        refine ⟨h1, h2, h3, ?_⟩
        intro _ q
        show valueOf (insertOrUpdateSt m k default).1 q =
          if q = k then some ((valueOf m k).getD default) else valueOf m q
        rw [hval q, valueOf_of_findSlot_none hfs]
        rfl

theorem subsLe_trans {s1 s2 s3 : List (Subarray K V)}
    (h12 : subsLe s1 s2) (h23 : subsLe s2 s3) : subsLe s1 s3 := by
  obtain ⟨hl1, h1⟩ := h12
  obtain ⟨hl2, h2⟩ := h23
  refine ⟨hl1.trans hl2, ?_⟩
  intro i sub sub'' ha hb
  have hi : i < s2.length := by
    rw [← hl1]
    exact lt_length_of_getElem? ha
  have hmid : s2[i]? = some s2[i] := List.getElem?_eq_getElem hi
  obtain ⟨c1, z1, l1⟩ := h1 i sub s2[i] ha hmid
  obtain ⟨c2, z2, l2⟩ := h2 i s2[i] sub'' hmid hb
  exact ⟨c1.trans c2, z1.trans z2, l1.trans l2⟩

theorem runOps_spec (ops : List (Op K V)) : ∀ m : ElasticHashMap K V, INV m →
    INV (runOps m ops).1 ∧ (runOps m ops).1.m_hasher = m.m_hasher ∧
      subsLe m.subarrays (runOps m ops).1.subarrays ∧
      ((runOps m ops).2 = true →
        ∀ q : K, valueOf (runOps m ops).1 q = (ops.foldl applyModel (valueOf m)) q) := by
  induction ops with
  | nil =>
    intro m hinv
    exact ⟨hinv, rfl, subsLe_refl _, fun _ q => rfl⟩
  | cons op rest ih =>
    intro m hinv
    obtain ⟨h1, h2, h3, h4⟩ := runOp_spec m op hinv
    simp only [runOps]
    cases hflag : (runOp m op).2 with
    | false =>
      rw [if_neg Bool.false_ne_true]
      exact ⟨h1, h2, h3, fun hc => absurd hc Bool.false_ne_true⟩
    | true =>
      rw [if_pos rfl]
      obtain ⟨g1, g2, g3, g4⟩ := ih (runOp m op).1 h1
      refine ⟨g1, g2.trans h2, subsLe_trans h3 g3, ?_⟩
      intro hflag2 q
      rw [g4 hflag2 q]
      have hfun : valueOf (runOp m op).1 = applyModel (valueOf m) op :=
        funext (h4 hflag)
      rw [List.foldl_cons, ← hfun]

theorem runOpsAll_spec (ops : List (Op K V)) : ∀ m : ElasticHashMap K V, INV m →
    INV (runOpsAll m ops) ∧ (runOpsAll m ops).m_hasher = m.m_hasher ∧
      subsLe m.subarrays (runOpsAll m ops).subarrays := by
  induction ops with
  | nil =>
    intro m hinv
    exact ⟨hinv, rfl, subsLe_refl _⟩
  | cons op rest ih =>
    intro m hinv
    obtain ⟨h1, h2, h3, -⟩ := runOp_spec m op hinv
    obtain ⟨g1, g2, g3⟩ := ih (runOp m op).1 h1
    exact ⟨g1, g2.trans h2, subsLe_trans h3 g3⟩

end StepSpec

/-! ### The freshly constructed map -/

section FreshMap

variable {K V : Type} [Inhabited K] [Inhabited V] [DecidableEq K]

theorem mkMap_absent (n : Nat) (hasher : K → Nat) (k : K) (i j : Nat) :
    ¬ occupiesSlot (mkMap n hasher : ElasticHashMap K V).subarrays k i j = true := by
  intro hx
  rw [occupiesSlot_iff] at hx
  obtain ⟨s, hss, ho, -⟩ := hx
  cases hsi : (mkMap n hasher : ElasticHashMap K V).subarrays[i]? with
  | none =>
    unfold slotAt at hss
    rw [hsi] at hss
    cases hss
  | some sub =>
    rw [slotAt_of_getElem? _ hsi j] at hss
    obtain ⟨c, -, rfl⟩ := List.mem_map.mp (mem_of_getElem? hsi)
    have h2 : (List.replicate c (Slot.empty : Slot K V))[j]? = some s := hss
    rw [List.getElem?_replicate] at h2
    by_cases hj : j < c
    · rw [if_pos hj] at h2
      obtain rfl := Option.some_inj.mp h2
      exact Bool.false_ne_true ho
    · rw [if_neg hj] at h2
      cases h2

theorem mkMap_INV (n : Nat) (hasher : K → Nat) :
    INV (mkMap n hasher : ElasticHashMap K V) := by
  refine ⟨?_, ?_, ?_⟩
  · intro sub hmem
    obtain ⟨c, -, rfl⟩ := List.mem_map.mp hmem
    exact List.length_replicate c _
  · intro sub hmem
    obtain ⟨c, -, rfl⟩ := List.mem_map.mp hmem
    show 0 = (List.replicate c (Slot.empty : Slot K V)).countP (·.occupied)
    have hz : ∀ nn : Nat,
        (List.replicate nn (Slot.empty : Slot K V)).countP (·.occupied) = 0 := by
      intro nn
      induction nn with
      | zero => rfl
      | succ nn ihn =>
        rw [List.replicate_succ, List.countP_cons, ihn]
        rfl
    rw [hz c]
  · intro k i j hx
    exact absurd hx (mkMap_absent n hasher k i j)

theorem mkMap_valueOf (n : Nat) (hasher : K → Nat) (q : K) :
    valueOf (mkMap n hasher : ElasticHashMap K V) q = none := by
  apply valueOf_of_findSlot_none
  exact findSlotList_of_absent _ q _ (mkMap_absent n hasher q)

end FreshMap

theorem mkSub_capacity [Inhabited K] [Inhabited V] (c : Nat) :
    (Subarray.mkSub c : Subarray K V).capacity = c := rfl

theorem mkMap_caps [Inhabited K] [Inhabited V] (n : Nat) (hasher : K → Nat) :
    (mkMap n hasher : ElasticHashMap K V).subarrays.map Subarray.capacity =
      buildCaps (if n < 8 then 8 else n) := by
  unfold mkMap
  rw [List.map_map]
  simp [Function.comp_def, mkSub_capacity]

end ElasticHashMap

/-- C1: for every constructed Map with requested total capacity `n` and
effective capacity `n' = max(n, 8)`, the sum of the capacities of all
Regions created by the constructor equals `n'`. -/
theorem claim_C1 {K V : Type} [Inhabited K] [Inhabited V] (n : Nat) (hasher : K → Nat) :
    ((ElasticHashMap.mkMap n hasher : ElasticHashMap K V).subarrays.map
      ElasticHashMap.Subarray.capacity).sum = max n 8 := by
  rw [ElasticHashMap.mkMap_caps, ElasticHashMap.buildCaps_sum]
  split <;> omega

/-- C2 counterexample: with requested total capacity 9 the constructor
produces Region capacities `[4, 2, 3]`, which are not ordered from largest
to smallest (the final region absorbs the remainder 3 and is larger than
its predecessor 2). -/
theorem claim_C2_cex :
    ((ElasticHashMap.mkMap 9 (fun n : Nat => n) : ElasticHashMap Nat Nat).subarrays.map
        ElasticHashMap.Subarray.capacity) = [4, 2, 3] ∧
      ¬ List.Chain' (fun a b => b ≤ a)
        ((ElasticHashMap.mkMap 9 (fun n : Nat => n) : ElasticHashMap Nat Nat).subarrays.map
          ElasticHashMap.Subarray.capacity) := by
  constructor
  · rfl
  · intro h
    have e : ((ElasticHashMap.mkMap 9 (fun n : Nat => n) : ElasticHashMap Nat Nat).subarrays.map
        ElasticHashMap.Subarray.capacity) = [4, 2, 3] := rfl
    rw [e, List.chain'_cons, List.chain'_cons] at h
    exact absurd h.2.1 (by omega)

/-- C3: starting from a freshly constructed Map, after any sequence of
successful operations, every key the functional model maps to a value `v`
(i.e. every successfully inserted key, with `v` its most recently written
value) satisfies `count = true`, and lookup through `findSlot` yields `v`. -/
theorem claim_C3 {K V : Type} [Inhabited K] [Inhabited V] [DecidableEq K]
    (n : Nat) (hasher : K → Nat) (ops : List (ElasticHashMap.Op K V)) (k : K) (v : V)
    (hrun : (ElasticHashMap.runOps (ElasticHashMap.mkMap n hasher) ops).2 = true)
    (hmod : ElasticHashMap.modelOf ops k = some v) :
    ElasticHashMap.count (ElasticHashMap.runOps (ElasticHashMap.mkMap n hasher) ops).1 k
        = true ∧
      ElasticHashMap.valueOf (ElasticHashMap.runOps (ElasticHashMap.mkMap n hasher) ops).1 k
        = some v := by
  obtain ⟨-, -, -, h4⟩ := ElasticHashMap.runOps_spec ops (ElasticHashMap.mkMap n hasher)
    (ElasticHashMap.mkMap_INV n hasher)
  have hfresh : ElasticHashMap.valueOf (ElasticHashMap.mkMap n hasher : ElasticHashMap K V) =
      fun _ => none := funext (ElasticHashMap.mkMap_valueOf n hasher)
  have hval : ElasticHashMap.valueOf
      (ElasticHashMap.runOps (ElasticHashMap.mkMap n hasher) ops).1 k = some v := by
    rw [h4 hrun k, hfresh]
    exact hmod
  refine ⟨?_, hval⟩
  show (ElasticHashMap.findSlot
    (ElasticHashMap.runOps (ElasticHashMap.mkMap n hasher) ops).1 k).isSome = true
  obtain ⟨loc, hloc, -⟩ := Option.bind_eq_some.mp hval
  rw [hloc]
  rfl

/-- C3 witness: after inserting key 0 with value 5 into a fresh
capacity-8 map, `count` is true and lookup yields 5. -/
theorem claim_C3_witness :
    ElasticHashMap.count
        (ElasticHashMap.runOps (ElasticHashMap.mkMap 8 (fun n => n) : ElasticHashMap Nat Nat)
          [ElasticHashMap.Op.put 0 5]).1 0 = true ∧
      ElasticHashMap.valueOf
        (ElasticHashMap.runOps (ElasticHashMap.mkMap 8 (fun n => n) : ElasticHashMap Nat Nat)
          [ElasticHashMap.Op.put 0 5]).1 0 = some 5 :=
  claim_C3 8 (fun n => n) [ElasticHashMap.Op.put 0 5] 0 5 (by decide) (by decide)

/-- C9: for every Region and every single operation run from an
invariant-respecting state, `size` equals the number of occupied slots both
before and after, never decreases, never exceeds `capacity`, and
`capacity` never changes. -/
theorem claim_C9 {K V : Type} [Inhabited K] [Inhabited V] [DecidableEq K]
    (m : ElasticHashMap K V) (op : ElasticHashMap.Op K V)
    (hinv : ElasticHashMap.INV m) :
    (∀ sub ∈ m.subarrays,
      sub.size = sub.slots.countP (·.occupied) ∧ sub.size ≤ sub.capacity) ∧
    (∀ sub ∈ (ElasticHashMap.runOp m op).1.subarrays,
      sub.size = sub.slots.countP (·.occupied) ∧ sub.size ≤ sub.capacity) ∧
    (ElasticHashMap.runOp m op).1.subarrays.length = m.subarrays.length ∧
    (∀ (i : Nat) (sub sub' : ElasticHashMap.Subarray K V),
      m.subarrays[i]? = some sub →
      (ElasticHashMap.runOp m op).1.subarrays[i]? = some sub' →
        sub.capacity = sub'.capacity ∧ sub.size ≤ sub'.size) := by
  obtain ⟨h1, -, h3, -⟩ := ElasticHashMap.runOp_spec m op hinv
  obtain ⟨hlen, hsize, -⟩ := hinv
  obtain ⟨hlen', hsize', -⟩ := h1
  obtain ⟨hll, hper⟩ := h3
  refine ⟨?_, ?_, hll.symm, ?_⟩
  · intro sub hmem
    refine ⟨hsize sub hmem, ?_⟩
    rw [hsize sub hmem, ← hlen sub hmem]
    exact List.countP_le_length _
  · intro sub hmem
    refine ⟨hsize' sub hmem, ?_⟩
    rw [hsize' sub hmem, ← hlen' sub hmem]
    exact List.countP_le_length _
  · intro i sub sub' ha hb
    obtain ⟨hc, hz, -⟩ := hper i sub sub' ha hb
    exact ⟨hc, hz⟩

/-- C9 witness: one `put` on a fresh capacity-8 map. -/
theorem claim_C9_witness :
    (∀ sub ∈ (ElasticHashMap.mkMap 8 (fun n => n) : ElasticHashMap Nat Nat).subarrays,
      sub.size = sub.slots.countP (·.occupied) ∧ sub.size ≤ sub.capacity) ∧
    (∀ sub ∈ (ElasticHashMap.runOp
        (ElasticHashMap.mkMap 8 (fun n => n) : ElasticHashMap Nat Nat)
        (ElasticHashMap.Op.put 0 5)).1.subarrays,
      sub.size = sub.slots.countP (·.occupied) ∧ sub.size ≤ sub.capacity) ∧
    (ElasticHashMap.runOp (ElasticHashMap.mkMap 8 (fun n => n) : ElasticHashMap Nat Nat)
      (ElasticHashMap.Op.put 0 5)).1.subarrays.length =
      (ElasticHashMap.mkMap 8 (fun n => n) : ElasticHashMap Nat Nat).subarrays.length ∧
    (∀ (i : Nat) (sub sub' : ElasticHashMap.Subarray Nat Nat),
      (ElasticHashMap.mkMap 8 (fun n => n) : ElasticHashMap Nat Nat).subarrays[i]?
        = some sub →
      (ElasticHashMap.runOp (ElasticHashMap.mkMap 8 (fun n => n) : ElasticHashMap Nat Nat)
        (ElasticHashMap.Op.put 0 5)).1.subarrays[i]? = some sub' →
        sub.capacity = sub'.capacity ∧ sub.size ≤ sub'.size) :=
  claim_C9 (ElasticHashMap.mkMap 8 (fun n => n)) (ElasticHashMap.Op.put 0 5)
    (ElasticHashMap.mkMap_INV 8 (fun n => n))

/-- C10: starting from a freshly constructed Map and applying any sequence
of operations (the state threads through failures unchanged), every key
occupies at most one slot across all Regions. -/
theorem claim_C10 {K V : Type} [Inhabited K] [Inhabited V] [DecidableEq K]
    (n : Nat) (hasher : K → Nat) (ops : List (ElasticHashMap.Op K V))
    (k : K) (i j i' j' : Nat)
    (h1 : ElasticHashMap.occupiesSlot
      (ElasticHashMap.runOpsAll (ElasticHashMap.mkMap n hasher) ops).subarrays k i j
        = true)
    (h2 : ElasticHashMap.occupiesSlot
      (ElasticHashMap.runOpsAll (ElasticHashMap.mkMap n hasher) ops).subarrays k i' j'
        = true) :
    i = i' ∧ j = j' := by
  obtain ⟨hinv', -, -⟩ := ElasticHashMap.runOpsAll_spec ops (ElasticHashMap.mkMap n hasher)
    (ElasticHashMap.mkMap_INV n hasher)
  exact ElasticHashMap.reach_unique hinv'.2.2 h1 h2

/-- C10 witness: after one insert, the inserted key's slot is unique. -/
theorem claim_C10_witness : (0 : Nat) = 0 ∧ (0 : Nat) = 0 :=
  claim_C10 8 (fun n => n) [ElasticHashMap.Op.put (0 : Nat) (5 : Nat)] 0 0 0 0 0
    (by decide) (by decide)

/-- C4: calling `insertOrUpdate(K, V)` twice in a row yields the same
observable Map state as calling it once (the second call is a pure no-op,
so in particular no Region's size grows), and after a successful call the
stored value for K is V.  The hypothesis is the representation invariant
of the C++ `Subarray` type: each `slots` vector has exactly `capacity`
entries (`slots.resize(cap)` in the constructor, never altered). -/
theorem claim_C4 {K V : Type} [Inhabited K] [Inhabited V] [DecidableEq K]
    (m : ElasticHashMap K V) (k : K) (v : V)
    (hlen : ElasticHashMap.lenOK m.subarrays) :
    ElasticHashMap.insertOrUpdateSt (ElasticHashMap.insertOrUpdateSt m k v).1 k v =
        ElasticHashMap.insertOrUpdateSt m k v ∧
      ((ElasticHashMap.insertOrUpdateSt m k v).2 = true →
        ElasticHashMap.valueOf (ElasticHashMap.insertOrUpdateSt m k v).1 k = some v) := by
  cases hold : ElasticHashMap.findSlotList m.m_hasher k m.subarrays with
  | some loc =>
    obtain ⟨i, j⟩ := loc
    obtain ⟨sub, hs, hfind, -⟩ :=
      (ElasticHashMap.findSlotList_eq_some_iff m.m_hasher k m.subarrays i j).mp hold
    obtain ⟨p, -, hp, hj, -, -⟩ :=
      (ElasticHashMap.findFromAux_eq_some_iff sub (m.m_hasher k) k
        (min 16 sub.capacity) 0 j).mp hfind
    have hcap : 0 < sub.capacity := by omega
    have hlensub : sub.slots.length = sub.capacity :=
      hlen sub (ElasticHashMap.mem_of_getElem? hs)
    have hjlt : j < sub.slots.length := by
      rw [hj, hlensub]
      exact Nat.mod_lt _ hcap
    have hins := ElasticHashMap.insertOrUpdateSt_eq_of_found m k v hold hs
    have hfs1 : ElasticHashMap.findSlotList m.m_hasher k
        (m.subarrays.set i (ElasticHashMap.setval sub j v)) = some (i, j) := by
      rw [ElasticHashMap.findSlotList_setval m.m_hasher k v m.subarrays i j sub hs]
      exact hold
    have hs1 : (m.subarrays.set i (ElasticHashMap.setval sub j v))[i]? =
        some (ElasticHashMap.setval sub j v) :=
      List.getElem?_set_self (ElasticHashMap.lt_length_of_getElem? hs)
    have he2 := ElasticHashMap.insertOrUpdateSt_eq_of_found
      ({ m with subarrays := m.subarrays.set i (ElasticHashMap.setval sub j v) } :
        ElasticHashMap K V) k v hfs1 hs1
    rw [ElasticHashMap.setval_setval sub j v hjlt] at he2
    constructor
    · rw [hins]
      show ElasticHashMap.insertOrUpdateSt
        ({ m with subarrays := m.subarrays.set i (ElasticHashMap.setval sub j v) }) k v = _
      rw [he2]
      rw [show ({ m with subarrays := m.subarrays.set i (ElasticHashMap.setval sub j v) } :
          ElasticHashMap K V).subarrays.set i (ElasticHashMap.setval sub j v) =
        m.subarrays.set i (ElasticHashMap.setval sub j v) from
          List.set_set _ _ m.subarrays i]
    · intro _
      rw [hins]
      show (ElasticHashMap.findSlotList m.m_hasher k
          (m.subarrays.set i (ElasticHashMap.setval sub j v))).bind
        (fun loc => (ElasticHashMap.slotAt
          (m.subarrays.set i (ElasticHashMap.setval sub j v)) loc.1 loc.2).map
            ElasticHashMap.Slot.value) = some v
      rw [hfs1]
      show (ElasticHashMap.slotAt
        (m.subarrays.set i (ElasticHashMap.setval sub j v)) i j).map
          ElasticHashMap.Slot.value = some v
      rw [ElasticHashMap.slotAt_set_self m.subarrays i _ j
        (ElasticHashMap.lt_length_of_getElem? hs)]
      show ((sub.slots.set j _)[j]?).map ElasticHashMap.Slot.value = some v
      rw [List.getElem?_set_self hjlt]
      rfl
  | none =>
    have hins := ElasticHashMap.insertOrUpdateSt_eq_of_insert m k v hold
    cases hdo : (ElasticHashMap.doInsertList m.m_hasher k v m.subarrays).2 with
    | false =>
      have hsnd : (ElasticHashMap.insertOrUpdateSt m k v).2 = false := by
        rw [hins]
        exact hdo
      have hfst := ElasticHashMap.insertOrUpdateSt_of_false m k v hsnd
      refine ⟨by rw [hfst], ?_⟩
      intro hcontra
      rw [hsnd] at hcontra
      exact absurd hcontra Bool.false_ne_true
    | true =>
      have hpair : ElasticHashMap.doInsertList m.m_hasher k v m.subarrays =
          ((ElasticHashMap.doInsertList m.m_hasher k v m.subarrays).1, true) := by
        rw [← hdo]
      obtain ⟨i, sub, p, hs, hp, -, hemp, hpre, hset⟩ :=
        ElasticHashMap.insert_step m.m_hasher k v hold hpair
      have hcap : 0 < sub.capacity := by omega
      have hlensub : sub.slots.length = sub.capacity :=
        hlen sub (ElasticHashMap.mem_of_getElem? hs)
      have hjlt : (m.m_hasher k + p) % sub.capacity < sub.slots.length := by
        rw [hlensub]
        exact Nat.mod_lt _ hcap
      have hins2 : ElasticHashMap.insertOrUpdateSt m k v =
          ({ m with subarrays := (m.subarrays.set i
              (ElasticHashMap.placeSlot sub ((m.m_hasher k + p) % sub.capacity) k v)) },
            true) := by
        rw [hins, hset, hdo]
      have hfs1 := ElasticHashMap.findSlot_after_place m.m_hasher k v hlen hold hs hp
        hemp hpre
      have hs1 : (m.subarrays.set i
          (ElasticHashMap.placeSlot sub ((m.m_hasher k + p) % sub.capacity) k v))[i]? =
          some (ElasticHashMap.placeSlot sub ((m.m_hasher k + p) % sub.capacity) k v) :=
        List.getElem?_set_self (ElasticHashMap.lt_length_of_getElem? hs)
      have he2 := ElasticHashMap.insertOrUpdateSt_eq_of_found
        ({ m with subarrays := (m.subarrays.set i
            (ElasticHashMap.placeSlot sub ((m.m_hasher k + p) % sub.capacity) k v)) } :
          ElasticHashMap K V) k v hfs1 hs1
      rw [ElasticHashMap.setval_placeSlot sub _ k v hjlt] at he2
      constructor
      · rw [hins2]
        show ElasticHashMap.insertOrUpdateSt
          ({ m with subarrays := (m.subarrays.set i
            (ElasticHashMap.placeSlot sub ((m.m_hasher k + p) % sub.capacity) k v)) })
          k v = _
        rw [he2]
        rw [show ({ m with subarrays := (m.subarrays.set i
            (ElasticHashMap.placeSlot sub ((m.m_hasher k + p) % sub.capacity) k v)) } :
            ElasticHashMap K V).subarrays.set i
              (ElasticHashMap.placeSlot sub ((m.m_hasher k + p) % sub.capacity) k v) =
          m.subarrays.set i
            (ElasticHashMap.placeSlot sub ((m.m_hasher k + p) % sub.capacity) k v) from
            List.set_set _ _ m.subarrays i]
      · intro _
        rw [hins2]
        show (ElasticHashMap.findSlotList m.m_hasher k
            (m.subarrays.set i
              (ElasticHashMap.placeSlot sub ((m.m_hasher k + p) % sub.capacity) k v))).bind
          (fun loc => (ElasticHashMap.slotAt
            (m.subarrays.set i
              (ElasticHashMap.placeSlot sub ((m.m_hasher k + p) % sub.capacity) k v))
            loc.1 loc.2).map ElasticHashMap.Slot.value) = some v
        rw [hfs1]
        show (ElasticHashMap.slotAt
          (m.subarrays.set i
            (ElasticHashMap.placeSlot sub ((m.m_hasher k + p) % sub.capacity) k v))
          i ((m.m_hasher k + p) % sub.capacity)).map ElasticHashMap.Slot.value = some v
        rw [ElasticHashMap.slotAt_set_self m.subarrays i _ _
          (ElasticHashMap.lt_length_of_getElem? hs)]
        show ((sub.slots.set ((m.m_hasher k + p) % sub.capacity) _)[
          ((m.m_hasher k + p) % sub.capacity)]?).map ElasticHashMap.Slot.value = some v
        rw [List.getElem?_set_self hjlt]
        rfl

/-- C4 witness: inserting key 0 twice into a fresh capacity-8 map. -/
theorem claim_C4_witness :
    ElasticHashMap.insertOrUpdateSt
        (ElasticHashMap.insertOrUpdateSt
          (ElasticHashMap.mkMap 8 (fun n => n) : ElasticHashMap Nat Nat) 0 5).1 0 5 =
        ElasticHashMap.insertOrUpdateSt
          (ElasticHashMap.mkMap 8 (fun n => n) : ElasticHashMap Nat Nat) 0 5 ∧
      ((ElasticHashMap.insertOrUpdateSt
          (ElasticHashMap.mkMap 8 (fun n => n) : ElasticHashMap Nat Nat) 0 5).2 = true →
        ElasticHashMap.valueOf
          (ElasticHashMap.insertOrUpdateSt
            (ElasticHashMap.mkMap 8 (fun n => n) : ElasticHashMap Nat Nat) 0 5).1 0 =
          some 5) :=
  claim_C4 (ElasticHashMap.mkMap 8 (fun n => n)) 0 5 (ElasticHashMap.mkMap_INV 8 (fun n => n)).1

/-- C5: a Region is modified by a successful insertion only if its fill
fraction at the time of the attempt was strictly below 90%
(`size * 10 < capacity * 9`); hence no successful insertion places a new
key into a Region at or above the threshold, even if it has empty slots. -/
theorem claim_C5 {K V : Type} [Inhabited K] [Inhabited V] [DecidableEq K]
    (hasher : K → Nat) (k : K) (v : V) (subs subs' : List (ElasticHashMap.Subarray K V))
    (hx : ElasticHashMap.doInsertList hasher k v subs = (subs', true)) :
    ∀ (i : Nat) (sub sub' : ElasticHashMap.Subarray K V),
      subs[i]? = some sub → subs'[i]? = some sub' → sub' ≠ sub →
        sub.size * 10 < sub.capacity * 9 := by
  obtain ⟨i0, sub0, sub2, hs0, hg, hf, hset⟩ :=
    ElasticHashMap.doInsertList_of_true hasher k v subs subs' hx
  intro i sub sub' hs hs' hne
  by_cases hi : i0 = i
  · subst hi
    rw [hs0] at hs
    obtain rfl := Option.some_inj.mp hs
    exact hg
  · rw [hset, List.getElem?_set_ne hi, hs] at hs'
    exact absurd (Option.some_inj.mp hs').symm hne

/-- C5 witness: inserting key 0 into a freshly built capacity-8 map
succeeds and modifies the first region, which was empty (0% < 90%). -/
theorem claim_C5_witness :
    (ElasticHashMap.Subarray.mkSub 4 : ElasticHashMap.Subarray Nat Nat).size * 10 <
      (ElasticHashMap.Subarray.mkSub 4 : ElasticHashMap.Subarray Nat Nat).capacity * 9 :=
  claim_C5 (fun n => n) 0 5
    (ElasticHashMap.mkMap 8 (fun n => n) : ElasticHashMap Nat Nat).subarrays
    (ElasticHashMap.doInsertList (fun n => n) 0 5
      (ElasticHashMap.mkMap 8 (fun n => n) : ElasticHashMap Nat Nat).subarrays).1
    (by decide) 0 (ElasticHashMap.Subarray.mkSub 4)
    ⟨[⟨true, 0, 5⟩, ⟨false, 0, 0⟩, ⟨false, 0, 0⟩, ⟨false, 0, 0⟩], 1, 4⟩
    (by decide) (by decide) (by decide)

/-- C6: for every Region, lookup (`findSlot`), update (`tryUpdate`) and
insertion (`doInsert`) all examine slot indices according to the same
canonical probe sequence `idx(probe) = (h + probe) mod capacity` for
`probe ∈ [0, L)`, `L = min(16, capacity)`: each per-subarray scan equals
the spec-level scan driven by `probeSeq`, so in particular the probe
sequences of lookup and insertion coincide. -/
theorem claim_C6 {K V : Type} [Inhabited K] [Inhabited V] [DecidableEq K]
    (sub : ElasticHashMap.Subarray K V) (h : Nat) (k : K) (v : V) :
    ElasticHashMap.findFromAux sub h k 0 (min 16 sub.capacity) =
        ElasticHashMap.scanFind sub k (ElasticHashMap.probeSeq h sub.capacity) ∧
      ElasticHashMap.tryUpdateFromAux sub h k v 0 (min 16 sub.capacity) =
        ElasticHashMap.scanUpdate sub k v (ElasticHashMap.probeSeq h sub.capacity) ∧
      ElasticHashMap.doInsertFromAux sub h k v 0 (min 16 sub.capacity) =
        ElasticHashMap.scanInsert sub k v (ElasticHashMap.probeSeq h sub.capacity) := by
  refine ⟨?_, ?_, ?_⟩ <;> rw [ElasticHashMap.probeSeq, List.range_eq_range']
  · exact ElasticHashMap.findFromAux_eq_scanFind sub h k _ 0
  · exact ElasticHashMap.tryUpdateFromAux_eq_scanUpdate sub h k v _ 0
  · exact ElasticHashMap.doInsertFromAux_eq_scanInsert sub h k v _ 0

/-- C7: a failed insertion (`doInsert` throwing after `tryUpdate` found
nothing) leaves the Map state — every slot and every Region size —
identical to the state before the operation. -/
theorem claim_C7 {K V : Type} [Inhabited K] [Inhabited V] [DecidableEq K]
    (m : ElasticHashMap K V) (k : K) (v : V)
    (hx : (ElasticHashMap.insertOrUpdateSt m k v).2 = false) :
    (ElasticHashMap.insertOrUpdateSt m k v).1 = m :=
  ElasticHashMap.insertOrUpdateSt_of_false m k v hx

/-- C7 witness: inserting a fresh key into a full one-slot map fails and
leaves the map unchanged. -/
theorem claim_C7_witness :
    (ElasticHashMap.insertOrUpdateSt
        (⟨[⟨[⟨true, 0, 0⟩], 1, 1⟩], fun n => n⟩ : ElasticHashMap Nat Nat) 1 5).1 =
      (⟨[⟨[⟨true, 0, 0⟩], 1, 1⟩], fun n => n⟩ : ElasticHashMap Nat Nat) :=
  claim_C7 _ 1 5 (by decide)

/-- C8: the indexed-access path signals its two failures distinctly:
`getOrInsertSt` returns the `doInsert` capacity message exactly when the
key was absent and the insertion could not place it, and returns its own
invariant-violation message exactly when the key was absent, the insertion
reported success, yet the second lookup still failed; the two messages are
distinct, so a caller can tell the two failure modes apart. -/
theorem claim_C8 {K V : Type} [Inhabited K] [Inhabited V] [DecidableEq K]
    (m : ElasticHashMap K V) (k : K) :
    ElasticHashMap.capacityMsg ≠ ElasticHashMap.invariantMsg ∧
      ((ElasticHashMap.getOrInsertSt m k).2 = .error ElasticHashMap.capacityMsg ↔
        ElasticHashMap.findSlot m k = none ∧
          (ElasticHashMap.insertOrUpdateSt m k default).2 = false) ∧
      ((ElasticHashMap.getOrInsertSt m k).2 = .error ElasticHashMap.invariantMsg ↔
        ElasticHashMap.findSlot m k = none ∧
          (ElasticHashMap.insertOrUpdateSt m k default).2 = true ∧
          ElasticHashMap.findSlot (ElasticHashMap.insertOrUpdateSt m k default).1 k
            = none) := by
  have hmsg : ElasticHashMap.capacityMsg ≠ ElasticHashMap.invariantMsg := by decide
  refine ⟨hmsg, ?_⟩
  cases hfs : ElasticHashMap.findSlot m k with
  | some loc =>
    have hg : (ElasticHashMap.getOrInsertSt m k).2 =
        .ok (ElasticHashMap.derefValue m.subarrays loc) := by
      unfold ElasticHashMap.getOrInsertSt
      rw [hfs]
    rw [hg]
    refine ⟨⟨?_, ?_⟩, ?_, ?_⟩
    · intro hx
      cases hx
    · rintro ⟨h1, -⟩
      cases h1
    · intro hx
      cases hx
    · rintro ⟨h1, -⟩
      cases h1
  | none =>
    cases hr : (ElasticHashMap.insertOrUpdateSt m k default).2 with
    | false =>
      have hg : (ElasticHashMap.getOrInsertSt m k).2 =
          .error ElasticHashMap.capacityMsg := by
        unfold ElasticHashMap.getOrInsertSt
        rw [hfs]
        show (if (ElasticHashMap.insertOrUpdateSt m k default).2 = true then _
          else ((ElasticHashMap.insertOrUpdateSt m k default).1,
            Except.error ElasticHashMap.capacityMsg)).2 = _
        rw [hr, if_neg Bool.false_ne_true]
      rw [hg]
      refine ⟨⟨?_, ?_⟩, ?_, ?_⟩
      · intro _
        exact ⟨rfl, rfl⟩
      · intro _
        rfl
      · intro hx
        exact absurd (Except.error.inj hx) hmsg
      · rintro ⟨-, h2, -⟩
        cases h2
    | true =>
      cases hfs2 : ElasticHashMap.findSlot
          (ElasticHashMap.insertOrUpdateSt m k default).1 k with
      | some loc2 =>
        have hg : (ElasticHashMap.getOrInsertSt m k).2 =
            .ok (ElasticHashMap.derefValue
              (ElasticHashMap.insertOrUpdateSt m k default).1.subarrays loc2) := by
          unfold ElasticHashMap.getOrInsertSt
          rw [hfs]
          show (if (ElasticHashMap.insertOrUpdateSt m k default).2 = true then
              (match ElasticHashMap.findSlot
                  (ElasticHashMap.insertOrUpdateSt m k default).1 k with
                | some loc => ((ElasticHashMap.insertOrUpdateSt m k default).1,
                    Except.ok (ElasticHashMap.derefValue
                      (ElasticHashMap.insertOrUpdateSt m k default).1.subarrays loc))
                | none => ((ElasticHashMap.insertOrUpdateSt m k default).1,
                    Except.error ElasticHashMap.invariantMsg))
            else ((ElasticHashMap.insertOrUpdateSt m k default).1,
              Except.error ElasticHashMap.capacityMsg)).2 = _
          rw [hr, if_pos rfl, hfs2]
        rw [hg]
        refine ⟨⟨?_, ?_⟩, ?_, ?_⟩
        · intro hx
          cases hx
        · rintro ⟨-, h2⟩
          cases h2
        · intro hx
          cases hx
        · rintro ⟨-, -, h3⟩
          cases h3
      | none =>
        have hg : (ElasticHashMap.getOrInsertSt m k).2 =
            .error ElasticHashMap.invariantMsg := by
          unfold ElasticHashMap.getOrInsertSt
          rw [hfs]
          show (if (ElasticHashMap.insertOrUpdateSt m k default).2 = true then
              (match ElasticHashMap.findSlot
                  (ElasticHashMap.insertOrUpdateSt m k default).1 k with
                | some loc => ((ElasticHashMap.insertOrUpdateSt m k default).1,
                    Except.ok (ElasticHashMap.derefValue
                      (ElasticHashMap.insertOrUpdateSt m k default).1.subarrays loc))
                | none => ((ElasticHashMap.insertOrUpdateSt m k default).1,
                    Except.error ElasticHashMap.invariantMsg))
            else ((ElasticHashMap.insertOrUpdateSt m k default).1,
              Except.error ElasticHashMap.capacityMsg)).2 = _
          rw [hr, if_pos rfl, hfs2]
        rw [hg]
        refine ⟨⟨?_, ?_⟩, ?_, ?_⟩
        · intro hx
          exact absurd (Except.error.inj hx) (fun h => hmsg h.symm)
        · rintro ⟨-, h2⟩
          cases h2
        · intro _
          exact ⟨rfl, rfl, rfl⟩
        · intro _
          rfl

/-- C2 (amended): the Region capacities produced by the constructor are
non-increasing except possibly at the final region: every region's target
size is `max(1, half of the capacity remaining)`, and the final region
absorbs the whole remainder when fewer than 4 slots remain, which can make
it larger than its predecessor (e.g. total capacity 9 gives `[4, 2, 3]`). -/
theorem claim_C2_amended {K V : Type} [Inhabited K] [Inhabited V] (n : Nat) (hasher : K → Nat) :
    List.Chain' (fun a b => b ≤ a)
      ((ElasticHashMap.mkMap n hasher : ElasticHashMap K V).subarrays.map
        ElasticHashMap.Subarray.capacity).dropLast := by
  rw [ElasticHashMap.mkMap_caps]
  exact ElasticHashMap.buildCaps_chain _

